import Mathlib

/-!
# Server list of the RPC client (`client/serverlist.go`)

A shallow embedding of the priority-ordered server list and proofs about its four
operations `set`, `get`, `all` and `mark`.

Modelling conventions.

* A `*endpoint` is modelled by the `endpoint` value it points to: the code never writes
  through such a pointer, and every pointer is taken to be non-nil.
* `net.Addr` is only ever compared for equality; it is modelled by a string.
* A Go slice is modelled by the list of its elements.  An index or slice expression that
  would panic in Go yields `none`.
* The namespace `ptr` holds a finer model of the same operations, in which a pointer may
  be nil and a comparison of `net.Addr` values may panic; it is used for panic freedom.
* The mutex `mu` is not modelled: every operation is one atomic step.
* `rand.Perm(n)` is an argument `randPerm : List Nat`, a permutation of `0..n-1`.
* `sort.Sort` belongs to the Go standard library; it is an argument `sortSort`, constrained
  by its documented contract (`SortContract`).
-/

namespace client

/-! ## Data model -/

/-- The Go struct `endpoint`: priority 0 is the highest priority. -/
structure endpoint where
  name : String
  addr : String
  priority : Int
deriving DecidableEq

/-- Method `endpoint.equal`: true if the name and addr match; priority is ignored. -/
def endpoint.equal (e o : endpoint) : Bool :=
  e.name == o.name && e.addr == o.addr

/-- The (name, addr) identity of an endpoint, which is what `equal` compares. -/
def endpoint.ident (e : endpoint) : String × String := (e.name, e.addr)

/-- The Go type `endpoints` is `[]*endpoint`. -/
abbrev endpoints := List endpoint

/-- The Go struct `serverlist` (without its mutex). -/
structure serverlist where
  e : endpoints
deriving DecidableEq

/-- Function `newServerList`: the zero value, whose slice `e` is nil (empty). -/
def newServerList : serverlist := { e := [] }

/-! ## Slice primitives of Go -/

/-- The tuple assignment `l[i], l[j] = l[j], l[i]`; `none` when an index is out of range. -/
def swapIdx {α : Type} (l : List α) (i j : Nat) : Option (List α) :=
  match l[i]?, l[j]? with
  | some a, some b => some ((l.set i b).set j a)
  | _, _ => none

/-- The slice expression `l[lo:]`; `none` when `lo` exceeds the length. -/
def sliceFrom {α : Type} (l : List α) (lo : Nat) : Option (List α) :=
  if lo ≤ l.length then some (l.drop lo) else none

/-- The assignment `l[k] = v`; `none` when `k` is out of range. -/
def storeAt {α : Type} (l : List α) (k : Nat) (v : α) : Option (List α) :=
  if k < l.length then some (l.set k v) else none

/-- The builtin `copy(dst, src)`: the new contents of `dst`.  It copies
`min(len(dst), len(src))` elements and reads all of them before writing (the two slices
may overlap). -/
def goCopy {α : Type} (dst src : List α) : List α :=
  let n := min dst.length src.length
  src.take n ++ dst.drop n

/-! ## The sort interface -/

/-- Method `endpoints.Len`. -/
def endpoints.Len (e : endpoints) : Nat := e.length

/-- Method `endpoints.Less`: `e[i].priority < e[j].priority`. -/
def endpoints.Less (e : endpoints) (i j : Nat) : Option Bool :=
  match e[i]?, e[j]? with
  | some a, some b => some (decide (a.priority < b.priority))
  | _, _ => none

/-- Method `endpoints.Swap`: `e[i], e[j] = e[j], e[i]`. -/
def endpoints.Swap (e : endpoints) (i j : Nat) : Option endpoints :=
  swapIdx e i j

/-- The documented contract of `sort.Sort`: the data is rearranged (it is only moved by
`Swap`) into ascending order as determined by `Less`; stability is not promised. -/
structure SortContract (sortSort : endpoints → endpoints) : Prop where
  perm : ∀ l, (sortSort l).Perm l
  sorted : ∀ l i j, i < j → j < endpoints.Len (sortSort l) →
    endpoints.Less (sortSort l) j i = some false

/-! ## Operations -/

/-- The loop `for i, j := range randPerm` with body `newe[i], newe[j] = newe[j], newe[i]`,
from index `i` on; `js` holds the values of `randPerm` still to be visited. -/
def shuffleFrom {α : Type} : Nat → List Nat → List α → Option (List α)
  | _, [], newe => some newe
  | i, j :: js, newe =>
    match swapIdx newe i j with
    | some newe1 => shuffleFrom (i + 1) js newe1
    | none => none

/-- The randomisation step of `set`. -/
def shuffle {α : Type} (randPerm : List Nat) (newe : List α) : Option (List α) :=
  shuffleFrom 0 randPerm newe

/-- Method `serverlist.set`: shuffle, sort by priority, install. -/
def serverlist.set (sortSort : endpoints → endpoints) (randPerm : List Nat)
    (s : serverlist) (newe : endpoints) : Option serverlist :=
  match shuffle randPerm newe with
  | some newe1 => some { s with e := sortSort newe1 }
  | none => none

/-- Method `serverlist.get`: the first server, or `none` (nil) if no server is available;
the second component is the list state after the call. -/
def serverlist.get (s : serverlist) : Option endpoint × serverlist :=
  if 0 < s.e.length then (s.e[0]?, s) else (none, s)

/-- The value `make([]*endpoint, n)` holds `n` nil pointers; this stands for one of them. -/
def nilEntry : endpoint := { name := "", addr := "", priority := 0 }

/-- Method `serverlist.all`: a copy of the full server list; the second component is the
list state after the call. -/
def serverlist.all (s : serverlist) : endpoints × serverlist :=
  let out := List.replicate s.e.length nilEntry
  (goCopy out s.e, s)

/-- The loop of `mark` at index `i`, with `fuel` iterations left to spend. -/
def markLoop (e : endpoint) (es : endpoints) : Nat → Nat → Option endpoints
  | 0, _ => none
  | fuel + 1, i =>
    if i < es.length then
      match es[i]? with
      | none => none
      | some x =>
        if x.equal e then
          match sliceFrom es i, sliceFrom es (i + 1) with
          | some dst, some src =>
            let es1 := es.take i ++ goCopy dst src
            storeAt es1 (es1.length - 1) e
          | _, _ => none
        else markLoop e es fuel (i + 1)
    else some es

/-- The body of `mark` on the slice `s.e`. -/
def markSlice (e : endpoint) (es : endpoints) : Option endpoints :=
  markLoop e es (es.length + 1) 0

/-- Method `serverlist.mark`: rotate the first server equal to `e` to the end of the list. -/
def serverlist.mark (s : serverlist) (e : endpoint) : Option serverlist :=
  match markSlice e s.e with
  | some es => some { s with e := es }
  | none => none

/-! ## Specification-level helpers -/

/-- Move the first entry equal to `e` to the end, storing `e` itself there. -/
def moveToEnd (e : endpoint) : endpoints → endpoints
  | [] => []
  | x :: xs => if x.equal e then xs ++ [e] else x :: moveToEnd e xs

/-- The number of outcomes `p` of `rand.Perm(len(L))` for which the randomisation step
turns `L` into the arrangement `a`. -/
def producedBy (L a : endpoints) : Nat :=
  ((List.range L.length).permutations'.filter (fun p => shuffle p L == some a)).length

/-! ## An insertion sort through the sort interface -/

/-- The inner loop of the insertion sort of the Go package `sort`:
`for j := i; j > 0 && data.Less(j, j-1); j--` with body `data.Swap(j, j-1)`. -/
def insertionInner (data : endpoints) : Nat → endpoints
  | 0 => data
  | j + 1 =>
    match endpoints.Less data (j + 1) j with
    | some true =>
      match endpoints.Swap data (j + 1) j with
      | some data1 => insertionInner data1 j
      | none => data
    | _ => data

/-- The outer loop `for i := 1; i < n; i++` of the insertion sort. -/
def insertionOuter : Nat → Nat → endpoints → endpoints
  | 0, _, data => data
  | fuel + 1, i, data =>
    if i < endpoints.Len data then insertionOuter fuel (i + 1) (insertionInner data i)
    else data

/-- The insertion sort that `sort.Sort` runs on short inputs; it meets `SortContract`. -/
def insertionSort (data : endpoints) : endpoints :=
  insertionOuter (endpoints.Len data) 1 data

/-- Entries `0..k-1` are in ascending priority order. -/
def SortedUpTo (data : endpoints) (k : Nat) : Prop :=
  ∀ a b x y, a < b → b < k → data[a]? = some x → data[b]? = some y → x.priority ≤ y.priority

/-! ## Memory model for aliasing -/

/-- A slice header: the address of the backing array, the offset of the first element in
it, and the length. -/
structure slice where
  arr : Nat
  off : Nat
  len : Nat
deriving DecidableEq

/-- The backing arrays, by address. -/
abbrev memory := List (List endpoint)

/-- The elements a slice header denotes. -/
def memory.read (m : memory) (sl : slice) : endpoints :=
  ((m.getD sl.arr []).drop sl.off).take sl.len

/-- Overwrite the elements a slice header denotes, in place. -/
def memory.write (m : memory) (sl : slice) (vals : endpoints) : memory :=
  let a := m.getD sl.arr []
  m.set sl.arr (a.take sl.off ++ vals ++ a.drop (sl.off + sl.len))

/-- The slice header points into an allocated array and stays within it. -/
def slice.valid (m : memory) (sl : slice) : Prop :=
  sl.arr < m.length ∧ sl.off + sl.len ≤ (m.getD sl.arr []).length

/-- A `serverlist` object together with the memory its slice `e` points into. -/
structure heap where
  mem : memory
  e : slice
deriving DecidableEq

/-- The sequence stored in the list. -/
def heap.stored (w : heap) : endpoints := w.mem.read w.e

/-- Function `newServerList` in memory: address 0 holds the empty array of the nil slice. -/
def heap.new : heap := { mem := [[]], e := { arr := 0, off := 0, len := 0 } }

/-- Method `serverlist.all` in memory: `make` allocates a fresh array, `copy` fills it. -/
def heap.all (w : heap) : slice × heap :=
  let out : slice := { arr := w.mem.length, off := 0, len := w.e.len }
  let mem1 : memory := w.mem ++ [List.replicate w.e.len nilEntry]
  (out, { w with mem := mem1.write out (goCopy (mem1.read out) (mem1.read w.e)) })

/-- Method `serverlist.get` in memory. -/
def heap.get (w : heap) : Option endpoint × heap :=
  if 0 < w.e.len then ((w.mem.read w.e)[0]?, w) else (none, w)

/-- Method `serverlist.mark` in memory: the elements of `s.e` are moved in place. -/
def heap.mark (w : heap) (e : endpoint) : Option heap :=
  match markSlice e (w.mem.read w.e) with
  | some es => some { w with mem := w.mem.write w.e es }
  | none => none

/-- Method `serverlist.set` in memory: the argument slice is shuffled and sorted in place,
then `s.e = newe` makes the list share its backing array. -/
def heap.set (sortSort : endpoints → endpoints) (randPerm : List Nat) (w : heap)
    (newe : slice) : Option heap :=
  match shuffle randPerm (w.mem.read newe) with
  | some newe1 => some { mem := w.mem.write newe (sortSort newe1), e := newe }
  | none => none

/-- A mutating call on the list. -/
inductive call where
  | mark (e : endpoint)
  | set (randPerm : List Nat) (newe : slice)
deriving DecidableEq

/-- Run one mutating call. -/
def heap.step (sortSort : endpoints → endpoints) (w : heap) : call → Option heap
  | call.mark e => w.mark e
  | call.set p newe => w.set sortSort p newe

/-- Run a sequence of mutating calls, first to last. -/
def heap.run (sortSort : endpoints → endpoints) : List call → heap → Option heap
  | [], w => some w
  | c :: cs, w =>
    match w.step sortSort c with
    | some w1 => heap.run sortSort cs w1
    | none => none

/-- The backing array a call writes to when run in state `w`. -/
def call.target (w : heap) : call → Nat
  | call.mark _ => w.e.arr
  | call.set _ newe => newe.arr

/-! ## Sequences of calls -/

/-- The calls `mark(e)` for each `e` of `marks`, first to last. -/
def markAll : List endpoint → serverlist → Option serverlist
  | [], s => some s
  | e :: es, s =>
    match s.mark e with
    | some s1 => markAll es s1
    | none => none

/-- The call `mark(get())`.  On an empty list `get()` is nil and the loop of `mark` does
not run, so the list is left as it is. -/
def markGet (s : serverlist) : Option serverlist :=
  match s.get with
  | (some h, s1) => s1.mark h
  | (none, s1) => some s1

/-- The call `mark(get())` repeated `k` times. -/
def markGetN : Nat → serverlist → Option serverlist
  | 0, s => some s
  | k + 1, s =>
    match markGet s with
    | some s1 => markGetN k s1
    | none => none

/-! ## Ties under the sort -/

/-- The endpoints of priority `k`, in the order in which they occur in `l`. -/
def tiesOf (k : Int) (l : endpoints) : endpoints :=
  l.filter (fun x => decide (x.priority = k))

/-- The loop `for i := 6; i < n; i++` with body
`if data.Less(i, i-6) then data.Swap(i, i-6)`, from index `i` on. -/
def gapPassFrom : Nat → Nat → endpoints → endpoints
  | 0, _, data => data
  | fuel + 1, i, data =>
    if i < endpoints.Len data then
      match endpoints.Less data i (i - 6) with
      | some true =>
        match endpoints.Swap data i (i - 6) with
        | some data1 => gapPassFrom fuel (i + 1) data1
        | none => data
      | _ => gapPassFrom fuel (i + 1) data
    else data

/-- What `sort.Sort` of the Go releases 1.6 to 1.18 runs on an input of at most 12
elements: one pass with gap 6, then the insertion sort.  It meets `SortContract` on every
input and is not stable. -/
def gapInsertionSort (data : endpoints) : endpoints :=
  insertionSort (gapPassFrom (endpoints.Len data) 6 data)

/-! ## Pointer-level model: nil pointers and interface comparison

The model above takes every `*endpoint` to be non-nil and every comparison of `net.Addr`
values to succeed.  The model in the namespace `ptr` drops both conventions: an entry of
a `[]*endpoint` is `none` for the nil pointer, a `net.Addr` is an interface value with a
dynamic type, and an operation returns `none` when it panics (index or slice out of range,
nil pointer dereference, comparison of interface values of an uncomparable dynamic type). -/

namespace ptr

/-- A dynamic type of an interface value, and whether Go can compare its values. -/
structure addrType where
  name : String
  comparable : Bool
deriving DecidableEq

/-- A `net.Addr` interface value: nil, or a dynamic type with a value of that type. -/
abbrev netAddr := Option (addrType × String)

/-- The comparison `a == b` of interface values: two nil values are equal, values of
different dynamic types are unequal, values of one comparable dynamic type are compared,
and values of one uncomparable dynamic type make the comparison panic. -/
def addrEq (a b : netAddr) : Option Bool :=
  match a, b with
  | none, none => some true
  | some (t1, v1), some (t2, v2) =>
    if t1 = t2 then (if t1.comparable then some (v1 == v2) else none) else some false
  | _, _ => some false

/-- The interface value is nil or of a comparable dynamic type. -/
def addrComparable (a : netAddr) : Bool :=
  match a with
  | none => true
  | some (t, _) => t.comparable

/-- The Go struct `endpoint`. -/
structure endpoint where
  name : String
  addr : netAddr
  priority : Int
deriving DecidableEq

/-- The Go type `endpoints` is `[]*endpoint`; `none` is the nil pointer. -/
abbrev endpoints := List (Option endpoint)

/-- The Go struct `serverlist` (without its mutex). -/
structure serverlist where
  e : endpoints
deriving DecidableEq

/-- Function `newServerList`. -/
def newServerList : serverlist := { e := [] }

/-- Method `endpoint.equal` on pointers: `e.name == o.name && e.addr == o.addr`.  Both
pointers are dereferenced by the left operand; the addrs are compared only when the names
are the same. -/
def endpoint.equal (e o : Option endpoint) : Option Bool :=
  match e, o with
  | some a, some b => if a.name == b.name then addrEq a.addr b.addr else some false
  | _, _ => none

/-- Method `endpoints.Len`. -/
def endpoints.Len (e : endpoints) : Nat := e.length

/-- Method `endpoints.Less`: `e[i].priority < e[j].priority`, dereferencing both entries. -/
def endpoints.Less (e : endpoints) (i j : Nat) : Option Bool :=
  match e[i]?, e[j]? with
  | some (some a), some (some b) => some (decide (a.priority < b.priority))
  | _, _ => none

/-- Method `endpoints.Swap`: `e[i], e[j] = e[j], e[i]`. -/
def endpoints.Swap (e : endpoints) (i j : Nat) : Option endpoints :=
  swapIdx e i j

/-- What is assumed of `sort.Sort`: it calls `Len`, `Less` and `Swap` only, with indices
below `Len`; so when no such call of `Less` can panic on any rearrangement of the data, it
returns, and the result is a rearrangement of the data. -/
structure SortContract (sortSort : endpoints → Option endpoints) : Prop where
  returns : ∀ l, (∀ l1 : endpoints, l1.Perm l → ∀ i j, i < endpoints.Len l1 →
      j < endpoints.Len l1 → (endpoints.Less l1 i j).isSome = true) →
    ∃ r, sortSort l = some r ∧ r.Perm l

/-- The inner loop of the insertion sort of the Go package `sort`:
`for j := i; j > 0 && data.Less(j, j-1); j--` with body `data.Swap(j, j-1)`. -/
def insertionInner (data : endpoints) : Nat → Option endpoints
  | 0 => some data
  | j + 1 =>
    match endpoints.Less data (j + 1) j with
    | none => none
    | some true =>
      match endpoints.Swap data (j + 1) j with
      | some data1 => insertionInner data1 j
      | none => none
    | some false => some data

/-- The outer loop `for i := 1; i < n; i++` of the insertion sort, with `fuel` iterations
left to spend. -/
def insertionOuter : Nat → Nat → endpoints → Option endpoints
  | 0, _, _ => none
  | fuel + 1, i, data =>
    if i < endpoints.Len data then
      match insertionInner data i with
      | some data1 => insertionOuter fuel (i + 1) data1
      | none => none
    else some data

/-- The insertion sort that `sort.Sort` runs on short inputs. -/
def insertionSort (data : endpoints) : Option endpoints :=
  insertionOuter (endpoints.Len data + 1) 1 data

/-- Method `serverlist.set`: shuffle, sort by priority, install. -/
def serverlist.set (sortSort : endpoints → Option endpoints) (randPerm : List Nat)
    (s : serverlist) (newe : endpoints) : Option serverlist :=
  match shuffle randPerm newe with
  | some newe1 =>
    match sortSort newe1 with
    | some newe2 => some { s with e := newe2 }
    | none => none
  | none => none

/-- Method `serverlist.get`: the pointer returned (`none` is nil) and the state after the
call; the outer `none` is a panic. -/
def serverlist.get (s : serverlist) : Option (Option endpoint × serverlist) :=
  if 0 < s.e.length then
    match s.e[0]? with
    | some x => some (x, s)
    | none => none
  else some (none, s)

/-- Method `serverlist.all`: `make` fills the new slice with nil pointers, `copy`
overwrites them. -/
def serverlist.all (s : serverlist) : Option (endpoints × serverlist) :=
  let out : endpoints := List.replicate s.e.length none
  some (goCopy out s.e, s)

/-- The loop of `mark` at index `i`, with `fuel` iterations left to spend. -/
def markLoop (e : Option endpoint) (es : endpoints) : Nat → Nat → Option endpoints
  | 0, _ => none
  | fuel + 1, i =>
    if i < es.length then
      match es[i]? with
      | none => none
      | some x =>
        match endpoint.equal x e with
        | none => none
        | some true =>
          match sliceFrom es i, sliceFrom es (i + 1) with
          | some dst, some src =>
            let es1 := es.take i ++ goCopy dst src
            storeAt es1 (es1.length - 1) e
          | _, _ => none
        | some false => markLoop e es fuel (i + 1)
    else some es

/-- Method `serverlist.mark`. -/
def serverlist.mark (s : serverlist) (e : Option endpoint) : Option serverlist :=
  match markLoop e s.e (s.e.length + 1) 0 with
  | some es => some { s with e := es }
  | none => none

end ptr

/-! ## Lemmas on `mark` -/

theorem goCopy_shift {α : Type} (x : α) (xs : List α) :
    ∃ z, goCopy (x :: xs) xs = xs ++ [z] := by
  unfold goCopy
  have h : min (x :: xs).length xs.length = xs.length := by simp
  simp only [h, List.take_length]
  have hl : ((x :: xs).drop xs.length).length = 1 := by simp
  match hd : (x :: xs).drop xs.length, hl with
  | [z], _ => exact ⟨z, rfl⟩

theorem goCopy_full {α : Type} (dst src : List α) (h : dst.length = src.length) :
    goCopy dst src = src := by
  simp [goCopy, h]

theorem storeAt_last {α : Type} (l : List α) (z v : α) :
    storeAt (l ++ [z]) ((l ++ [z]).length - 1) v = some (l ++ [v]) := by
  unfold storeAt
  simp [List.set_append]

theorem markLoop_eq (e : endpoint) (es : endpoints) :
    ∀ fuel i, i ≤ es.length → es.length - i < fuel →
      markLoop e es fuel i = some (es.take i ++ moveToEnd e (es.drop i)) := by
  intro fuel
  induction fuel with
  | zero => intro i _ h; omega
  | succ k ih =>
    intro i hi hf
    unfold markLoop
    by_cases hlt : i < es.length
    · have hd : es.drop i = es[i] :: es.drop (i + 1) := List.drop_eq_getElem_cons hlt
      simp only [hlt, if_true, List.getElem?_eq_getElem]
      by_cases hx : es[i].equal e = true
      · have h1 : sliceFrom es i = some (es.drop i) := by simp [sliceFrom, hi]
        have h2 : sliceFrom es (i + 1) = some (es.drop (i + 1)) := by
          simp [sliceFrom]; omega
        simp only [hx, if_true, h1, h2, hd, moveToEnd]
        obtain ⟨z, hz⟩ := goCopy_shift es[i] (es.drop (i + 1))
        rw [hz, ← List.append_assoc, storeAt_last, List.append_assoc]
      · simp only [hx, hd, moveToEnd]
        rw [ih (i + 1) (by omega) (by omega)]
        have ht : es.take (i + 1) = es.take i ++ [es[i]] := by
          rw [List.take_succ, List.getElem?_eq_getElem hlt]; rfl
        rw [ht, List.append_assoc]; rfl
    · have : i = es.length := by omega
      subst this
      simp [moveToEnd]

theorem markSlice_eq (e : endpoint) (es : endpoints) :
    markSlice e es = some (moveToEnd e es) := by
  unfold markSlice
  rw [markLoop_eq e es _ 0 (by omega) (by omega)]
  simp

theorem moveToEnd_absent (e : endpoint) (es : endpoints)
    (h : ∀ x ∈ es, x.equal e = false) : moveToEnd e es = es := by
  induction es with
  | nil => rfl
  | cons x xs ih =>
    have hx : x.equal e = false := h x (List.mem_cons_self x xs)
    simp only [moveToEnd, hx]
    rw [ih (fun y hy => h y (List.mem_cons_of_mem x hy))]
    rfl

theorem moveToEnd_first (e : endpoint) (es : endpoints) :
    ∀ i (hi : i < es.length), es[i].equal e = true →
      (∀ x ∈ es.take i, x.equal e = false) →
      moveToEnd e es = es.take i ++ es.drop (i + 1) ++ [e] := by
  induction es with
  | nil => intro i hi; simp at hi
  | cons x xs ih =>
    intro i hi heq hfirst
    cases i with
    | zero =>
      have hx : x.equal e = true := by simpa using heq
      simp [moveToEnd, hx]
    | succ k =>
      have hx : x.equal e = false := hfirst x (by simp)
      have hk : k < xs.length := by simpa using hi
      have := ih k hk (by simpa using heq)
        (fun y hy => hfirst y (by simp [hy]))
      simp [moveToEnd, hx, this]

theorem moveToEnd_length (e : endpoint) (es : endpoints) :
    (moveToEnd e es).length = es.length := by
  induction es with
  | nil => rfl
  | cons x xs ih =>
    by_cases hx : x.equal e = true
    · simp [moveToEnd, hx]
    · simp [moveToEnd, hx, ih]

theorem equal_iff (x e : endpoint) :
    x.equal e = true ↔ x.name = e.name ∧ x.addr = e.addr := by
  simp [endpoint.equal]

theorem equal_ident (x e : endpoint) (h : x.equal e = true) : x.ident = e.ident := by
  rw [equal_iff] at h
  simp [endpoint.ident, h.1, h.2]

theorem equal_eq_iff (x e : endpoint) (h : x.equal e = true) :
    x = e ↔ x.priority = e.priority := by
  rw [equal_iff] at h
  constructor
  · intro hxe; rw [hxe]
  · intro hp
    cases x; cases e
    simp at h hp ⊢
    exact ⟨h.1, h.2, hp⟩

theorem moveToEnd_ident (e : endpoint) (es : endpoints) :
    ((moveToEnd e es).map endpoint.ident).Perm (es.map endpoint.ident) := by
  induction es with
  | nil => exact List.Perm.refl _
  | cons x xs ih =>
    by_cases hx : x.equal e = true
    · simp only [moveToEnd, hx, if_true, List.map_append, List.map_cons, List.map_nil,
        equal_ident x e hx]
      exact List.perm_append_singleton _ _
    · simp only [moveToEnd, hx, List.map_cons]
      exact List.Perm.cons _ ih

theorem moveToEnd_erase (e : endpoint) (es : endpoints) (x : endpoint)
    (h : es.find? (fun y => y.equal e) = some x) :
    (moveToEnd e es).Perm (e :: es.erase x) := by
  induction es with
  | nil => simp at h
  | cons y ys ih =>
    by_cases hy : y.equal e = true
    · simp only [List.find?, hy] at h
      cases h
      simp only [moveToEnd, hy, if_true, List.erase_cons_head]
      exact List.perm_append_singleton _ _
    · have hy2 : y.equal e = false := by simpa using hy
      simp only [List.find?, hy2] at h
      have hxe : x.equal e = true := by simpa using List.find?_some h
      have hne : y ≠ x := by
        intro hyx; rw [hyx] at hy; exact hy hxe
      simp only [moveToEnd, hy2]
      rw [List.erase_cons_tail (by simpa using hne)]
      exact ((ih h).cons y).trans (List.Perm.swap e y _)

theorem moveToEnd_perm_iff (e : endpoint) (es : endpoints) :
    (moveToEnd e es).Perm es ↔
      ∀ x, es.find? (fun y => y.equal e) = some x → x.priority = e.priority := by
  cases hf : es.find? (fun y => y.equal e) with
  | none =>
    have : moveToEnd e es = es :=
      moveToEnd_absent e es (fun x hx => by simpa using List.find?_eq_none.1 hf x hx)
    simp [this]
  | some x =>
    have hxe : x.equal e = true := by simpa using List.find?_some hf
    have hmem : x ∈ es := List.mem_of_find?_eq_some hf
    have h1 := moveToEnd_erase e es x hf
    have h2 : es.Perm (x :: es.erase x) := List.perm_cons_erase hmem
    constructor
    · intro hp y hy
      cases hy
      have h3 : (e :: es.erase x).Perm (x :: es.erase x) := h1.symm.trans (hp.trans h2)
      have hc := h3.count_eq e
      simp only [List.count_cons_self, List.count_cons] at hc
      have hxe2 : x = e := by
        by_contra hne
        have : (x == e) = false := by simpa using hne
        simp [this] at hc
      rw [hxe2]
    · intro hp
      have hxe2 : x = e := (equal_eq_iff x e hxe).2 (hp x rfl)
      rw [hxe2] at h2 h1
      exact h1.trans h2.symm

/-! ## Lemmas on the shuffle and the sort -/

theorem swapIdx_some {α : Type} (l : List α) (i j : Nat) (hi : i < l.length)
    (hj : j < l.length) : swapIdx l i j = some ((l.set i l[j]).set j l[i]) := by
  simp [swapIdx, List.getElem?_eq_getElem hi, List.getElem?_eq_getElem hj]

theorem swapIdx_inv {α : Type} (l l1 : List α) (i j : Nat) (h : swapIdx l i j = some l1) :
    ∃ (hi : i < l.length) (hj : j < l.length), l1 = (l.set i l[j]).set j l[i] := by
  by_cases hi : i < l.length
  · by_cases hj : j < l.length
    · rw [swapIdx_some l i j hi hj] at h
      exact ⟨hi, hj, (Option.some.inj h).symm⟩
    · simp [swapIdx, List.getElem?_eq_none (Nat.le_of_not_lt hj)] at h
  · simp [swapIdx, List.getElem?_eq_none (Nat.le_of_not_lt hi)] at h

theorem set_set_perm_self {α : Type} (l : List α) (i j : Nat) (hi : i < l.length)
    (hj : j < l.length) : ((l.set i l[j]).set j l[i]).Perm l := by
  classical
  rw [List.perm_iff_count]
  intro x
  have hj1 : j < (l.set i l[j]).length := by simpa using hj
  rw [List.count_set _ _ _ _ hj1, List.count_set _ _ _ _ hi]
  have h1 := List.boole_getElem_le_count x l i hi
  have h2 := List.boole_getElem_le_count x l j hj
  by_cases hij : i = j
  · subst hij
    simp only [List.getElem_set_self]
    split_ifs at * <;> omega
  · rw [List.getElem_set_ne hij]
    split_ifs at * <;> omega

theorem swapIdx_perm {α : Type} (l l1 : List α) (i j : Nat) (h : swapIdx l i j = some l1) :
    l1.Perm l := by
  obtain ⟨hi, hj, rfl⟩ := swapIdx_inv l l1 i j h
  exact set_set_perm_self l i j hi hj

theorem shuffleFrom_perm {α : Type} (js : List Nat) :
    ∀ (i : Nat) (l l1 : List α), shuffleFrom i js l = some l1 → l1.Perm l := by
  induction js with
  | nil => intro i l l1 h; simp [shuffleFrom] at h; subst h; exact List.Perm.refl _
  | cons j js ih =>
    intro i l l1 h
    simp only [shuffleFrom] at h
    split at h
    · next l2 h2 => exact (ih _ _ _ h).trans (swapIdx_perm l l2 i j h2)
    · exact absurd h (by simp)

theorem shuffleFrom_some {α : Type} (js : List Nat) :
    ∀ (i : Nat) (l : List α), i + js.length ≤ l.length → (∀ j ∈ js, j < l.length) →
      ∃ l1, shuffleFrom i js l = some l1 := by
  induction js with
  | nil => intro i l _ _; exact ⟨l, rfl⟩
  | cons j js ih =>
    intro i l hlen hjs
    have hi : i < l.length := by simp at hlen; omega
    have hj : j < l.length := hjs j (by simp)
    simp only [shuffleFrom, swapIdx_some l i j hi hj]
    apply ih
    · simp at hlen ⊢; omega
    · intro k hk; simpa using hjs k (by simp [hk])

theorem shuffle_some {α : Type} (p : List Nat) (l : List α)
    (hp : p.Perm (List.range l.length)) : ∃ l1, shuffle p l = some l1 ∧ l1.Perm l := by
  have hlen : p.length = l.length := by simpa using hp.length_eq
  obtain ⟨l1, h1⟩ := shuffleFrom_some p 0 l (by omega)
    (fun j hj => by simpa using hp.subset hj)
  exact ⟨l1, h1, shuffleFrom_perm p 0 l l1 h1⟩

theorem SortContract.pairwise {sortSort : endpoints → endpoints} (hs : SortContract sortSort)
    (l : endpoints) : (sortSort l).Pairwise (fun a b => a.priority ≤ b.priority) := by
  rw [List.pairwise_iff_getElem]
  intro i j hi hj hij
  have h := hs.sorted l i j hij hj
  simp only [endpoints.Less, List.getElem?_eq_getElem hi, List.getElem?_eq_getElem hj] at h
  simpa using h

theorem insertionInner_perm : ∀ (j : Nat) (data : endpoints),
    (insertionInner data j).Perm data := by
  intro j
  induction j with
  | zero => intro data; exact List.Perm.refl _
  | succ j ih =>
    intro data
    simp only [insertionInner]
    split
    · split
      · next data1 h1 => exact (ih data1).trans (swapIdx_perm _ _ _ _ h1)
      · exact List.Perm.refl _
    · exact List.Perm.refl _

theorem insertionInner_sorted : ∀ (j : Nat) (data : endpoints) (i : Nat),
    j ≤ i → i < data.length →
    (∀ a b x y, a < b → b ≤ i → a ≠ j → b ≠ j → data[a]? = some x → data[b]? = some y →
      x.priority ≤ y.priority) →
    (∀ b x y, j < b → b ≤ i → data[j]? = some x → data[b]? = some y →
      x.priority ≤ y.priority) →
    SortedUpTo (insertionInner data j) (i + 1) := by
  intro j
  induction j with
  | zero =>
    intro data i _ _ h1 h2 a b x y hab hb hx hy
    simp only [insertionInner] at hx hy
    by_cases ha : a = 0
    · subst ha; exact h2 b x y hab (by omega) hx hy
    · exact h1 a b x y hab (by omega) ha (by omega) hx hy
  | succ j ih =>
    intro data i hji hi h1 h2
    have hj1 : j + 1 < data.length := by omega
    have hj0 : j < data.length := by omega
    have hswap := swapIdx_some data (j + 1) j hj1 hj0
    simp only [insertionInner, endpoints.Less, endpoints.Swap, hswap,
      List.getElem?_eq_getElem hj1, List.getElem?_eq_getElem hj0]
    by_cases hlt : data[j + 1].priority < data[j].priority
    · simp only [hlt, decide_True]
      have hget : ∀ k, ((data.set (j + 1) data[j]).set j data[j + 1])[k]? =
          if k = j then some data[j + 1] else if k = j + 1 then some data[j] else data[k]? := by
        intro k
        simp only [List.getElem?_set, List.length_set]
        by_cases hk : k = j
        · subst hk; simp [hj0]
        · by_cases hk1 : k = j + 1
          · subst hk1; simp [hj1]
          · simp [hk, hk1, Ne.symm hk, Ne.symm hk1]
      apply ih _ i (by omega) (by simpa using hi)
      · intro a b x y hab hb ha hbj hx hy
        rw [hget] at hx hy
        simp only [ha, hbj, if_false] at hx hy
        by_cases ha1 : a = j + 1
        · subst ha1
          simp only [if_true] at hx
          have hb1 : b ≠ j + 1 := by omega
          simp only [hb1, if_false] at hy
          cases hx
          exact h1 j b _ y (by omega) hb (by omega) hb1
            (List.getElem?_eq_getElem hj0) hy
        · simp only [ha1, if_false] at hx
          by_cases hb1 : b = j + 1
          · subst hb1
            simp only [if_true] at hy
            cases hy
            exact h1 a j x _ (by omega) (by omega) ha1 (by omega) hx
              (List.getElem?_eq_getElem hj0)
          · simp only [hb1, if_false] at hy
            exact h1 a b x y hab hb ha1 hb1 hx hy
      · intro b x y hjb hb hx hy
        rw [hget] at hx hy
        simp only [if_true] at hx
        cases hx
        have hbj : b ≠ j := by omega
        simp only [hbj, if_false] at hy
        by_cases hb1 : b = j + 1
        · subst hb1
          simp only [if_true] at hy
          cases hy
          exact le_of_lt hlt
        · simp only [hb1, if_false] at hy
          exact h2 b _ y (by omega) hb (List.getElem?_eq_getElem hj1) hy
    · simp only [hlt, decide_False]
      intro a b x y hab hb hx hy
      by_cases ha1 : a = j + 1
      · subst ha1; exact h2 b x y hab (by omega) hx hy
      · by_cases hb1 : b = j + 1
        · subst hb1
          have hyv : y = data[j + 1] := by
            rw [List.getElem?_eq_getElem hj1] at hy; exact (Option.some.inj hy).symm
          subst hyv
          have hle : data[j].priority ≤ data[j + 1].priority := not_lt.mp hlt
          by_cases haj : a = j
          · subst haj
            rw [List.getElem?_eq_getElem hj0] at hx
            cases hx
            exact hle
          · have := h1 a j x data[j] (by omega) (by omega) ha1 (by omega) hx
              (List.getElem?_eq_getElem hj0)
            exact le_trans this hle
        · exact h1 a b x y hab (by omega) ha1 hb1 hx hy

theorem insertionOuter_perm : ∀ (fuel i : Nat) (data : endpoints),
    (insertionOuter fuel i data).Perm data := by
  intro fuel
  induction fuel with
  | zero => intro i data; exact List.Perm.refl _
  | succ k ih =>
    intro i data
    simp only [insertionOuter]
    split
    · exact (ih _ _).trans (insertionInner_perm i data)
    · exact List.Perm.refl _

theorem insertionOuter_sorted : ∀ (fuel i : Nat) (data : endpoints),
    data.length ≤ i + fuel → SortedUpTo data i →
    SortedUpTo (insertionOuter fuel i data) data.length := by
  intro fuel
  induction fuel with
  | zero =>
    intro i data hf hs a b x y hab hb hx hy
    exact hs a b x y hab (by simp at hf; omega) hx hy
  | succ k ih =>
    intro i data hf hs
    simp only [insertionOuter, endpoints.Len]
    by_cases hi : i < data.length
    · simp only [hi, if_true]
      have hlen : (insertionInner data i).length = data.length :=
        (insertionInner_perm i data).length_eq
      have hstep : SortedUpTo (insertionInner data i) (i + 1) :=
        insertionInner_sorted i data i (Nat.le_refl i) hi
          (fun a b x y hab hb _ hbi hx hy => hs a b x y hab (by omega) hx hy)
          (fun b x y hib hb _ _ => by omega)
      have := ih (i + 1) (insertionInner data i) (by omega) hstep
      rwa [hlen] at this
    · simp only [hi, if_false]
      intro a b x y hab hb hx hy
      exact hs a b x y hab (by omega) hx hy

theorem insertionSort_contract : SortContract insertionSort := by
  constructor
  · intro l; exact insertionOuter_perm _ _ _
  · intro l i j hij hj
    have hlen : (insertionSort l).length = l.length := (insertionOuter_perm _ _ _).length_eq
    have hs : SortedUpTo (insertionSort l) l.length :=
      insertionOuter_sorted (endpoints.Len l) 1 l (by simp [endpoints.Len])
        (fun a b x y hab hb _ _ => by omega)
    simp only [endpoints.Len] at hj
    have hj2 : j < (insertionSort l).length := hj
    have hi2 : i < (insertionSort l).length := by omega
    have := hs i j _ _ hij (by omega) (List.getElem?_eq_getElem hi2)
      (List.getElem?_eq_getElem hj2)
    simp only [endpoints.Less, List.getElem?_eq_getElem hi2, List.getElem?_eq_getElem hj2]
    simpa using this

theorem set_eq (sortSort : endpoints → endpoints) (p : List Nat) (s : serverlist)
    (L : endpoints) (hp : p.Perm (List.range L.length)) :
    ∃ l1, shuffle p L = some l1 ∧ l1.Perm L ∧
      s.set sortSort p L = some { e := sortSort l1 } := by
  obtain ⟨l1, h1, h2⟩ := shuffle_some p L hp
  exact ⟨l1, h1, h2, by simp [serverlist.set, h1]⟩

theorem sorted_abc (l : endpoints)
    (hp : l.Perm [⟨"A", "a", 1⟩, ⟨"B", "b", 0⟩, ⟨"C", "c", 0⟩])
    (hs : l.Pairwise (fun a b => a.priority ≤ b.priority)) :
    l = [⟨"B", "b", 0⟩, ⟨"C", "c", 0⟩, ⟨"A", "a", 1⟩] ∨
      l = [⟨"C", "c", 0⟩, ⟨"B", "b", 0⟩, ⟨"A", "a", 1⟩] := by
  have hm := List.mem_permutations'.2 hp
  simp only [List.permutations', List.permutations'Aux,
    List.map_cons, List.map_nil, List.cons_append, List.nil_append, List.append_nil,
    List.mem_cons, List.mem_singleton, List.not_mem_nil, or_false,
    List.flatMap_cons, List.flatMap_nil] at hm
  rcases hm with h | h | h | h | h | h <;> subst h <;> revert hs <;> decide

/-! ## Lemmas on the memory model -/

theorem memory.read_write_other (m : memory) (sl out : slice) (vals : endpoints)
    (h : sl.arr ≠ out.arr) : (m.write sl vals).read out = m.read out := by
  simp only [memory.read, memory.write, List.getD_eq_getElem?_getD]
  rw [List.getElem?_set_ne h]

theorem memory.read_write_same (m : memory) (sl : slice) (vals : endpoints)
    (hv : sl.valid m) (hlen : vals.length = sl.len) : (m.write sl vals).read sl = vals := by
  obtain ⟨h1, h2⟩ := hv
  simp only [List.getD_eq_getElem?_getD] at h2
  simp only [memory.read, memory.write, List.getD_eq_getElem?_getD]
  rw [List.getElem?_set_self h1]
  simp only [Option.getD_some, List.append_assoc]
  have hto : (List.take sl.off (m[sl.arr]?.getD [])).length = sl.off := by
    rw [List.length_take]; omega
  rw [List.drop_append_of_le_length (by omega), List.drop_of_length_le (by omega)]
  simp only [List.nil_append]
  rw [List.take_append_of_le_length (by omega), ← hlen, List.take_length]

theorem memory.read_length (m : memory) (sl : slice) (hv : sl.valid m) :
    (m.read sl).length = sl.len := by
  obtain ⟨_, h2⟩ := hv
  simp only [memory.read, List.length_take, List.length_drop]
  omega

theorem memory.read_append (m : memory) (a : List endpoint) (sl : slice)
    (h : sl.arr < m.length) : memory.read (m ++ [a]) sl = m.read sl := by
  simp only [memory.read, List.getD_eq_getElem?_getD]
  rw [List.getElem?_append_left h]

theorem heap.all_out (w : heap) (hv : w.e.valid w.mem) :
    w.all.2.mem.read w.all.1 = w.stored := by
  have hlen := memory.read_length w.mem w.e hv
  have hfresh : memory.read (w.mem ++ [List.replicate w.e.len nilEntry])
      { arr := w.mem.length, off := 0, len := w.e.len } = List.replicate w.e.len nilEntry := by
    simp [memory.read, List.getD_eq_getElem?_getD]
  simp only [heap.all, heap.stored]
  rw [memory.read_append _ _ _ hv.1, hfresh, goCopy_full _ _ (by simp [hlen])]
  apply memory.read_write_same
  · constructor
    · simp
    · simp [List.getD_eq_getElem?_getD]
  · exact hlen

theorem heap.all_stored (w : heap) (hv : w.e.valid w.mem) :
    w.all.2.stored = w.stored := by
  simp only [heap.all, heap.stored]
  rw [memory.read_write_other _ _ _ _ (by simpa using (Nat.ne_of_lt hv.1).symm)]
  exact memory.read_append _ _ _ hv.1

theorem heap.step_frame (sortSort : endpoints → endpoints) (out : slice) (w w2 : heap)
    (c : call) (hc : c.target w ≠ out.arr) (h : w.step sortSort c = some w2) :
    w2.mem.read out = w.mem.read out ∧ w2.e.arr = c.target w := by
  cases c with
  | mark e =>
    simp only [heap.step, heap.mark] at h
    split at h
    · cases h
      exact ⟨memory.read_write_other _ _ _ _ hc, rfl⟩
    · exact absurd h (by simp)
  | set p newe =>
    simp only [heap.step, heap.set] at h
    split at h
    · cases h
      exact ⟨memory.read_write_other _ _ _ _ hc, rfl⟩
    · exact absurd h (by simp)

theorem heap.run_frame (sortSort : endpoints → endpoints) (out : slice) :
    ∀ (cs : List call) (w w2 : heap), w.e.arr ≠ out.arr →
      (∀ p L, call.set p L ∈ cs → L.arr ≠ out.arr) →
      heap.run sortSort cs w = some w2 → w2.mem.read out = w.mem.read out := by
  intro cs
  induction cs with
  | nil => intro w w2 _ _ h; simp only [heap.run] at h; cases h; rfl
  | cons c cs ih =>
    intro w w2 hw hcs h
    simp only [heap.run] at h
    split at h
    · next w1 h1 =>
      have hc : c.target w ≠ out.arr := by
        cases c with
        | mark e => exact hw
        | set p L => exact hcs p L (List.mem_cons_self _ _)
      obtain ⟨hr, he⟩ := heap.step_frame sortSort out w w1 c hc h1
      rw [ih w1 w2 (by rw [he]; exact hc)
        (fun p L hm => hcs p L (List.mem_cons_of_mem _ hm)) h, hr]
    · exact absurd h (by simp)

theorem heap.mark_some (w : heap) (e : endpoint) :
    w.mark e = some { w with mem := w.mem.write w.e (moveToEnd e w.stored) } := by
  simp [heap.mark, markSlice_eq, heap.stored]

/-- The fresh list in memory is well formed and stores the empty sequence. -/
theorem heap.new_valid : heap.new.e.valid heap.new.mem ∧ heap.new.stored = newServerList.e := by
  refine ⟨⟨by decide, by decide⟩, by decide⟩

/-- In memory, `get` reads what `serverlist.get` reads, and writes nothing. -/
theorem heap.get_refines (w : heap) (hv : w.e.valid w.mem) :
    w.get = ((serverlist.mk w.stored).get.1, w) := by
  have hlen := memory.read_length w.mem w.e hv
  simp only [heap.get, serverlist.get, heap.stored, hlen]
  split <;> rfl

/-- In memory, `mark` leaves in the window of `s.e` what `serverlist.mark` computes. -/
theorem heap.mark_refines (w : heap) (e : endpoint) (hv : w.e.valid w.mem) :
    ∃ w2, w.mark e = some w2 ∧ w2.e = w.e ∧
      (serverlist.mk w.stored).mark e = some ⟨w2.stored⟩ := by
  refine ⟨_, heap.mark_some w e, rfl, ?_⟩
  have hlen : (moveToEnd e w.stored).length = w.e.len := by
    rw [moveToEnd_length]; exact memory.read_length w.mem w.e hv
  simp only [heap.stored] at hlen
  simp only [heap.stored, serverlist.mark, markSlice_eq]
  rw [memory.read_write_same _ _ _ hv hlen]

/-- In memory, `set` leaves in the window of its argument what `serverlist.set` computes,
and makes `s.e` that very slice. -/
theorem heap.set_refines (sortSort : endpoints → endpoints) (hs : SortContract sortSort)
    (w : heap) (p : List Nat) (L : slice) (hv : L.valid w.mem)
    (hp : p.Perm (List.range L.len)) :
    ∃ w2, w.set sortSort p L = some w2 ∧ w2.e = L ∧
      (serverlist.mk w.stored).set sortSort p (w.mem.read L) = some ⟨w2.stored⟩ := by
  have hlen := memory.read_length w.mem L hv
  obtain ⟨l1, h1, h2⟩ := shuffle_some p (w.mem.read L) (by rw [hlen]; exact hp)
  refine ⟨{ mem := w.mem.write L (sortSort l1), e := L }, by simp only [heap.set, h1], rfl, ?_⟩
  have hl : (sortSort l1).length = L.len := by
    rw [((hs.perm l1).trans h2).length_eq, hlen]
  simp only [serverlist.set, h1, heap.stored]
  rw [memory.read_write_same _ _ _ hv hl]

/-! ## Lemmas on sequences of calls -/

theorem mark_eq (s : serverlist) (e : endpoint) :
    s.mark e = some { e := moveToEnd e s.e } := by
  simp [serverlist.mark, markSlice_eq]

theorem moveToEnd_cons_ne (e x : endpoint) (xs : endpoints) (hx : ¬ x.equal e = true) :
    moveToEnd e (x :: xs) = x :: moveToEnd e xs := by
  simp [moveToEnd, hx]

theorem moveToEnd_cons_eq (e x : endpoint) (xs : endpoints) (hx : x.equal e = true) :
    moveToEnd e (x :: xs) = xs ++ [e] := by
  simp [moveToEnd, hx]

theorem moveToEnd_mem (e : endpoint) (es : endpoints) :
    ∀ t ∈ moveToEnd e es, t ∈ es ∨ t = e := by
  induction es with
  | nil => intro t ht; simp [moveToEnd] at ht
  | cons x xs ih =>
    intro t ht
    by_cases hx : x.equal e = true
    · rw [moveToEnd_cons_eq e x xs hx] at ht
      rcases List.mem_append.1 ht with h1 | h1
      · exact Or.inl (List.mem_cons_of_mem x h1)
      · exact Or.inr (List.mem_singleton.1 h1)
    · rw [moveToEnd_cons_ne e x xs hx] at ht
      rcases List.mem_cons.1 ht with h1 | h1
      · exact Or.inl (h1 ▸ List.mem_cons_self x xs)
      · rcases ih t h1 with h2 | h2
        · exact Or.inl (List.mem_cons_of_mem x h2)
        · exact Or.inr h2

theorem equal_iff_ident (x e : endpoint) : x.equal e = true ↔ x.ident = e.ident := by
  rw [equal_iff]
  simp [endpoint.ident]

theorem ident_mem_iff (m : endpoint) (l : endpoints) :
    m.ident ∈ l.map endpoint.ident ↔ ∃ x ∈ l, x.equal m = true := by
  simp only [List.mem_map, equal_iff_ident]

theorem moveToEnd_tail_step (e : endpoint) :
    ∀ T : endpoints, ((∀ x ∈ T, x.equal e = false) ∧ moveToEnd e T = T) ∨
      ∃ T0, moveToEnd e T = T0 ++ [e] ∧ T0.Sublist T ∧
        ∀ t ∈ T, t ∈ T0 ∨ t.equal e = true := by
  intro T
  induction T with
  | nil => exact Or.inl ⟨by simp, rfl⟩
  | cons x xs ih =>
    by_cases hx : x.equal e = true
    · refine Or.inr ⟨xs, moveToEnd_cons_eq e x xs hx, List.sublist_cons_self x xs, ?_⟩
      intro t ht
      rcases List.mem_cons.1 ht with h | h
      · exact Or.inr (h ▸ hx)
      · exact Or.inl h
    · rcases ih with ⟨h1, h2⟩ | ⟨T0, h1, h2, h3⟩
      · refine Or.inl ⟨?_, by rw [moveToEnd_cons_ne e x xs hx, h2]⟩
        intro t ht
        rcases List.mem_cons.1 ht with h | h
        · rw [h]; simpa using hx
        · exact h1 t h
      · refine Or.inr ⟨x :: T0, by rw [moveToEnd_cons_ne e x xs hx, h1]; rfl, h2.cons₂ x, ?_⟩
        intro t ht
        rcases List.mem_cons.1 ht with h | h
        · exact Or.inl (h ▸ List.mem_cons_self x T0)
        · rcases h3 t h with h4 | h4
          · exact Or.inl (List.mem_cons_of_mem x h4)
          · exact Or.inr h4

theorem moveToEnd_step (e : endpoint) (T : endpoints) :
    ∀ P : endpoints, ((∀ x ∈ P ++ T, x.equal e = false) ∧ moveToEnd e (P ++ T) = P ++ T) ∨
      ∃ P1 T0, moveToEnd e (P ++ T) = P1 ++ (T0 ++ [e]) ∧ P1.Sublist P ∧ T0.Sublist T ∧
        ∀ t ∈ T, t ∈ T0 ∨ t.equal e = true := by
  intro P
  induction P with
  | nil =>
    rcases moveToEnd_tail_step e T with h | ⟨T0, h1, h2, h3⟩
    · exact Or.inl h
    · exact Or.inr ⟨[], T0, h1, List.Sublist.refl _, h2, h3⟩
  | cons x P0 ih =>
    by_cases hx : x.equal e = true
    · refine Or.inr ⟨P0, T, ?_, List.sublist_cons_self x P0, List.Sublist.refl _,
        fun t ht => Or.inl ht⟩
      rw [List.cons_append, moveToEnd_cons_eq e x _ hx, List.append_assoc]
    · rcases ih with ⟨h1, h2⟩ | ⟨P1, T0, h1, h2, h3, h4⟩
      · refine Or.inl ⟨?_, by rw [List.cons_append, moveToEnd_cons_ne e x _ hx, h2]⟩
        intro t ht
        rcases List.mem_cons.1 ht with h | h
        · rw [h]; simpa using hx
        · exact h1 t h
      · refine Or.inr ⟨x :: P1, T0, ?_, h2.cons₂ x, h3, h4⟩
        rw [List.cons_append, moveToEnd_cons_ne e x _ hx, h1]
        rfl

theorem moveToEnd_getLast (e : endpoint) (es : endpoints)
    (h : ∃ x ∈ es, x.equal e = true) : (moveToEnd e es).getLast? = some e := by
  rcases moveToEnd_tail_step e es with ⟨h1, _⟩ | ⟨T0, h1, _, _⟩
  · obtain ⟨x, hx, hxe⟩ := h
    rw [h1 x hx] at hxe
    exact absurd hxe (by simp)
  · rw [h1]; simp

theorem markAll_append (ms : List endpoint) (e : endpoint) :
    ∀ s : serverlist, markAll (ms ++ [e]) s =
      (markAll ms s).bind (fun s1 => s1.mark e) := by
  induction ms with
  | nil => intro s; simp [markAll, mark_eq]
  | cons m ms ih =>
    intro s
    simp only [List.cons_append, markAll]
    rw [mark_eq s m]
    exact ih _

theorem markAll_invariant : ∀ (ms seen : List endpoint) (s : serverlist)
    (P T S0 : endpoints), s.e = P ++ T → P.Sublist S0 → T.Sublist seen →
    (∀ m ∈ seen, m.ident ∈ s.e.map endpoint.ident → ∃ t ∈ T, t.equal m = true) →
    ∃ s2 P2 T2, markAll ms s = some s2 ∧ s2.e = P2 ++ T2 ∧ P2.Sublist S0 ∧
      T2.Sublist (seen ++ ms) ∧
      (s2.e.map endpoint.ident).Perm (s.e.map endpoint.ident) ∧
      ∀ m ∈ seen ++ ms, m.ident ∈ s.e.map endpoint.ident → ∃ t ∈ T2, t.equal m = true := by
  intro ms
  induction ms with
  | nil =>
    intro seen s P T S0 h1 h2 h3 h4
    exact ⟨s, P, T, rfl, h1, h2, by simpa using h3, List.Perm.refl _, by simpa using h4⟩
  | cons e es ih =>
    intro seen s P T S0 h1 h2 h3 h4
    have hid := moveToEnd_ident e s.e
    have hmem : ∀ m : endpoint, m.ident ∈ (moveToEnd e s.e).map endpoint.ident ↔
        m.ident ∈ s.e.map endpoint.ident := fun m => hid.mem_iff
    have hnext : ∃ P1 T1, moveToEnd e s.e = P1 ++ T1 ∧ P1.Sublist S0 ∧
        T1.Sublist (seen ++ [e]) ∧
        ∀ m ∈ seen ++ [e], m.ident ∈ (moveToEnd e s.e).map endpoint.ident →
          ∃ t ∈ T1, t.equal m = true := by
      rcases moveToEnd_step e T P with ⟨g1, g2⟩ | ⟨P1, T0, g1, g2, g3, g4⟩
      · refine ⟨P, T, by rw [h1, g2], h2,
          h3.trans (List.sublist_append_left seen [e]), ?_⟩
        intro m hm hin
        rcases List.mem_append.1 hm with hs | hs
        · exact h4 m hs ((hmem m).1 hin)
        · have hme : m = e := List.mem_singleton.1 hs
          subst hme
          obtain ⟨x, hx, hxe⟩ := (ident_mem_iff m s.e).1 ((hmem m).1 hin)
          rw [h1] at hx
          rw [g1 x hx] at hxe
          exact absurd hxe (by simp)
      · refine ⟨P1, T0 ++ [e], by rw [h1, g1], g2.trans h2,
          List.Sublist.append (g3.trans h3) (List.Sublist.refl _), ?_⟩
        have hee : e.equal e = true := by simp [endpoint.equal]
        intro m hm hin
        rcases List.mem_append.1 hm with hs | hs
        · obtain ⟨t, ht, hte⟩ := h4 m hs ((hmem m).1 hin)
          rcases g4 t ht with k | k
          · exact ⟨t, List.mem_append_left _ k, hte⟩
          · refine ⟨e, by simp, ?_⟩
            rw [equal_iff_ident] at hte k ⊢
            exact k.symm.trans hte
        · have hme : m = e := List.mem_singleton.1 hs
          subst hme
          exact ⟨m, by simp, hee⟩
    obtain ⟨P1, T1, g1, g2, g3, g4⟩ := hnext
    obtain ⟨s2, P2, T2, k1, k2, k3, k4, k5, k6⟩ :=
      ih (seen ++ [e]) { e := moveToEnd e s.e } P1 T1 S0 g1 g2 g3 g4
    refine ⟨s2, P2, T2, ?_, k2, k3, by simpa using k4, k5.trans hid, ?_⟩
    · simp only [markAll, mark_eq]; exact k1
    · intro m hm hin
      exact k6 m (by simpa using hm) ((hmem m).2 hin)

theorem markGet_cons (x : endpoint) (xs : endpoints) :
    markGet { e := x :: xs } = some { e := xs ++ [x] } := by
  have hx : x.equal x = true := by simp [endpoint.equal]
  simp [markGet, serverlist.get, mark_eq, moveToEnd, hx]

theorem markGet_nil : markGet { e := [] } = some { e := [] } := by
  simp [markGet, serverlist.get]

theorem markGet_rotate (s : serverlist) : markGet s = some { e := s.e.rotate 1 } := by
  cases s with
  | mk e =>
    cases e with
    | nil => simpa using markGet_nil
    | cons x xs =>
      have hr : (x :: xs).rotate 1 = xs ++ [x] := by simp [List.rotate_cons_succ]
      rw [hr]
      exact markGet_cons x xs

theorem markGetN_rotate : ∀ (k : Nat) (s : serverlist),
    markGetN k s = some { e := s.e.rotate k } := by
  intro k
  induction k with
  | zero => intro s; simp [markGetN]
  | succ k ih =>
    intro s
    simp only [markGetN, markGet_rotate, ih, List.rotate_rotate]
    rw [Nat.add_comm]

theorem moveToEnd_append_absent (e : endpoint) (ys : endpoints) :
    ∀ xs : endpoints, (∀ x ∈ xs, x.equal e = false) →
      moveToEnd e (xs ++ ys) = xs ++ moveToEnd e ys := by
  intro xs
  induction xs with
  | nil => intro _; rfl
  | cons x xs ih =>
    intro h
    have hx : ¬ x.equal e = true := by simp [h x (List.mem_cons_self x xs)]
    rw [List.cons_append, moveToEnd_cons_ne e x _ hx,
      ih (fun y hy => h y (List.mem_cons_of_mem x hy))]
    rfl

theorem moveToEnd_idem (e : endpoint) :
    ∀ es : endpoints, es.countP (fun x => x.equal e) ≤ 1 →
      moveToEnd e (moveToEnd e es) = moveToEnd e es := by
  intro es
  induction es with
  | nil => intro _; rfl
  | cons x xs ih =>
    intro h
    have he : e.equal e = true := by simp [endpoint.equal]
    by_cases hx : x.equal e = true
    · have h0 : xs.countP (fun y => y.equal e) = 0 := by
        simp only [List.countP_cons, hx, if_true] at h; omega
      have habs : ∀ y ∈ xs, y.equal e = false := by
        intro y hy
        have := List.countP_eq_zero.1 h0 y hy
        simpa using this
      rw [moveToEnd_cons_eq e x xs hx, moveToEnd_append_absent e [e] xs habs,
        moveToEnd_cons_eq e e [] he]
      rfl
    · have h1 : xs.countP (fun y => y.equal e) ≤ 1 := by
        simpa only [List.countP_cons, hx, Bool.false_eq_true, if_false, Nat.add_zero] using h
      rw [moveToEnd_cons_ne e x xs hx, moveToEnd_cons_ne e x _ hx, ih h1]

theorem mark_accesses (e : endpoint) (es : endpoints) (i : Nat) (hi : i < es.length) :
    ∃ x dst src es2, es[i]? = some x ∧ sliceFrom es i = some dst ∧
      sliceFrom es (i + 1) = some src ∧
      storeAt (es.take i ++ goCopy dst src) ((es.take i ++ goCopy dst src).length - 1) e
        = some es2 := by
  have hd : es.drop i = es[i] :: es.drop (i + 1) := List.drop_eq_getElem_cons hi
  have h1 : sliceFrom es i = some (es.drop i) := by simp [sliceFrom, Nat.le_of_lt hi]
  have h2 : sliceFrom es (i + 1) = some (es.drop (i + 1)) := by
    simp only [sliceFrom, if_pos (Nat.succ_le_of_lt hi)]
  obtain ⟨z, hz⟩ := goCopy_shift es[i] (es.drop (i + 1))
  refine ⟨es[i], es.drop i, es.drop (i + 1), es.take i ++ es.drop (i + 1) ++ [e],
    List.getElem?_eq_getElem hi, h1, h2, ?_⟩
  rw [hd, hz, ← List.append_assoc, storeAt_last]

theorem less_swap_some (L : endpoints) (i j : Nat) (hi : i < endpoints.Len L)
    (hj : j < endpoints.Len L) :
    (endpoints.Less L i j).isSome = true ∧ (endpoints.Swap L i j).isSome = true := by
  simp only [endpoints.Len] at hi hj
  simp [endpoints.Less, endpoints.Swap, swapIdx_some L i j hi hj,
    List.getElem?_eq_getElem hi, List.getElem?_eq_getElem hj]

/-! ## Lemmas on ties under the sort -/

theorem gapPassFrom_perm : ∀ (fuel i : Nat) (data : endpoints),
    (gapPassFrom fuel i data).Perm data := by
  intro fuel
  induction fuel with
  | zero => intro i data; exact List.Perm.refl _
  | succ k ih =>
    intro i data
    simp only [gapPassFrom]
    split
    · split
      · split
        · next data1 h1 => exact (ih _ data1).trans (swapIdx_perm _ _ _ _ h1)
        · exact List.Perm.refl _
      · exact ih _ data
    · exact List.Perm.refl _

theorem gapInsertionSort_contract : SortContract gapInsertionSort := by
  constructor
  · intro l
    exact (insertionSort_contract.perm _).trans (gapPassFrom_perm _ _ l)
  · intro l i j hij hj
    exact insertionSort_contract.sorted _ i j hij hj

theorem swap_adjacent_eq : ∀ (l : endpoints) (j : Nat) (x y : endpoint),
    l[j]? = some x → l[j + 1]? = some y →
    l = l.take j ++ x :: y :: l.drop (j + 2) ∧
      (l.set (j + 1) x).set j y = l.take j ++ y :: x :: l.drop (j + 2) := by
  intro l
  induction l with
  | nil => intro j x y h; simp at h
  | cons a t ih =>
    intro j x y hx hy
    cases j with
    | zero =>
      cases t with
      | nil => simp at hy
      | cons b u =>
        simp at hx hy
        subst hx; subst hy
        simp
    | succ j =>
      have hx1 : t[j]? = some x := by simpa using hx
      have hy1 : t[j + 1]? = some y := by simpa using hy
      obtain ⟨h1, h2⟩ := ih j x y hx1 hy1
      constructor
      · simp only [List.take_succ_cons, List.drop_succ_cons, List.cons_append]
        exact congrArg (List.cons a) h1
      · simp only [List.set_cons_succ, List.take_succ_cons, List.drop_succ_cons,
          List.cons_append]
        exact congrArg (List.cons a) h2

theorem tiesOf_swap_adjacent (k : Int) (l : endpoints) (j : Nat) (x y : endpoint)
    (hx : l[j]? = some x) (hy : l[j + 1]? = some y) (hne : y.priority ≠ x.priority) :
    tiesOf k ((l.set (j + 1) x).set j y) = tiesOf k l := by
  obtain ⟨h1, h2⟩ := swap_adjacent_eq l j x y hx hy
  rw [h2]
  conv => rhs; rw [h1]
  simp only [tiesOf, List.filter_append, List.filter_cons]
  by_cases hxk : x.priority = k
  · have hyk : ¬ y.priority = k := fun h => hne (h.trans hxk.symm)
    simp [hxk, hyk]
  · simp [hxk]

theorem insertionInner_ties (k : Int) : ∀ (j : Nat) (data : endpoints),
    tiesOf k (insertionInner data j) = tiesOf k data := by
  intro j
  induction j with
  | zero => intro data; rfl
  | succ j ih =>
    intro data
    simp only [insertionInner]
    split
    · next hless =>
      split
      · next data1 h1 =>
        obtain ⟨hi, hj, rfl⟩ := swapIdx_inv data data1 (j + 1) j h1
        rw [ih]
        simp only [endpoints.Less, List.getElem?_eq_getElem hi,
          List.getElem?_eq_getElem hj, Option.some.injEq, decide_eq_true_eq] at hless
        exact tiesOf_swap_adjacent k data j data[j] data[j + 1]
          (List.getElem?_eq_getElem hj) (List.getElem?_eq_getElem hi) (ne_of_lt hless)
      · rfl
    · rfl

theorem insertionOuter_ties (k : Int) : ∀ (fuel i : Nat) (data : endpoints),
    tiesOf k (insertionOuter fuel i data) = tiesOf k data := by
  intro fuel
  induction fuel with
  | zero => intro i data; rfl
  | succ n ih =>
    intro i data
    simp only [insertionOuter]
    split
    · rw [ih, insertionInner_ties]
    · rfl

theorem insertionSort_ties (k : Int) (l : endpoints) :
    tiesOf k (insertionSort l) = tiesOf k l :=
  insertionOuter_ties k _ _ l

/-! ## Lemmas on the pointer-level model -/

theorem ptr_addrEq_some (a b : ptr.netAddr) (hb : ptr.addrComparable b = true) :
    ∃ r, ptr.addrEq a b = some r := by
  cases a with
  | none => cases b <;> simp [ptr.addrEq]
  | some x =>
    cases b with
    | none => simp [ptr.addrEq]
    | some y =>
      obtain ⟨t1, v1⟩ := x
      obtain ⟨t2, v2⟩ := y
      simp only [ptr.addrComparable] at hb
      by_cases ht : t1 = t2
      · subst ht; simp [ptr.addrEq, hb]
      · simp [ptr.addrEq, ht]

theorem ptr_equal_some (a e : ptr.endpoint) (he : ptr.addrComparable e.addr = true) :
    ∃ r, ptr.endpoint.equal (some a) (some e) = some r := by
  simp only [ptr.endpoint.equal]
  split
  · exact ptr_addrEq_some a.addr e.addr he
  · exact ⟨false, rfl⟩

theorem ptr_less_some (l : ptr.endpoints) (hl : ∀ x ∈ l, x ≠ none) (i j : Nat)
    (hi : i < ptr.endpoints.Len l) (hj : j < ptr.endpoints.Len l) :
    (ptr.endpoints.Less l i j).isSome = true := by
  simp only [ptr.endpoints.Len] at hi hj
  have h1 := hl l[i] (List.getElem_mem hi)
  have h2 := hl l[j] (List.getElem_mem hj)
  obtain ⟨a, ha⟩ := Option.ne_none_iff_exists'.1 h1
  obtain ⟨b, hb⟩ := Option.ne_none_iff_exists'.1 h2
  simp [ptr.endpoints.Less, List.getElem?_eq_getElem hi, List.getElem?_eq_getElem hj, ha, hb]

theorem slice_accesses {α : Type} (v : α) (es : List α) (i : Nat) (hi : i < es.length) :
    ∃ x dst src, es[i]? = some x ∧ sliceFrom es i = some dst ∧
      sliceFrom es (i + 1) = some src ∧
      storeAt (es.take i ++ goCopy dst src) ((es.take i ++ goCopy dst src).length - 1) v
        = some (es.take i ++ es.drop (i + 1) ++ [v]) := by
  have hd : es.drop i = es[i] :: es.drop (i + 1) := List.drop_eq_getElem_cons hi
  have h1 : sliceFrom es i = some (es.drop i) := by simp [sliceFrom, Nat.le_of_lt hi]
  have h2 : sliceFrom es (i + 1) = some (es.drop (i + 1)) := by
    simp only [sliceFrom, if_pos (Nat.succ_le_of_lt hi)]
  obtain ⟨z, hz⟩ := goCopy_shift es[i] (es.drop (i + 1))
  refine ⟨es[i], es.drop i, es.drop (i + 1), List.getElem?_eq_getElem hi, h1, h2, ?_⟩
  rw [hd, hz, ← List.append_assoc, storeAt_last]

theorem ptr_markLoop_some (e : ptr.endpoint) (he : ptr.addrComparable e.addr = true)
    (es : ptr.endpoints) (hes : ∀ x ∈ es, x ≠ none) :
    ∀ fuel i, es.length - i < fuel →
      ∃ r, ptr.markLoop (some e) es fuel i = some r ∧ r.length = es.length ∧
        ∀ x ∈ r, x ≠ none := by
  intro fuel
  induction fuel with
  | zero => intro i h; omega
  | succ k ih =>
    intro i hf
    unfold ptr.markLoop
    by_cases hlt : i < es.length
    · simp only [hlt, if_true, List.getElem?_eq_getElem]
      obtain ⟨a, ha⟩ := Option.ne_none_iff_exists'.1 (hes es[i] (List.getElem_mem hlt))
      rw [ha]
      obtain ⟨r, hr⟩ := ptr_equal_some a e he
      rw [hr]
      cases r with
      | false => exact ih (i + 1) (by omega)
      | true =>
        obtain ⟨x, dst, src, _, h1, h2, h3⟩ := slice_accesses (some e) es i hlt
        simp only [h1, h2, h3]
        refine ⟨_, rfl, ?_, ?_⟩
        · simp; omega
        · intro y hy
          simp only [List.mem_append, List.mem_singleton] at hy
          rcases hy with (hy | hy) | hy
          · exact hes y (List.mem_of_mem_take hy)
          · exact hes y (List.mem_of_mem_drop hy)
          · rw [hy]; simp
    · simp only [hlt, if_false]
      exact ⟨es, rfl, rfl, hes⟩

theorem ptr_insertionInner_some (l : ptr.endpoints)
    (hless : ∀ l1 : ptr.endpoints, l1.Perm l → ∀ i j, i < ptr.endpoints.Len l1 →
      j < ptr.endpoints.Len l1 → (ptr.endpoints.Less l1 i j).isSome = true) :
    ∀ (j : Nat) (data : ptr.endpoints), data.Perm l → j < data.length ∨ j = 0 →
      ∃ r, ptr.insertionInner data j = some r ∧ r.Perm l := by
  intro j
  induction j with
  | zero => intro data hd _; exact ⟨data, rfl, hd⟩
  | succ j ih =>
    intro data hd hj
    have hj1 : j + 1 < data.length := by omega
    have hj0 : j < data.length := by omega
    have h := hless data hd (j + 1) j hj1 hj0
    obtain ⟨b, hb⟩ := Option.isSome_iff_exists.1 h
    simp only [ptr.insertionInner, hb]
    cases b with
    | false => exact ⟨data, rfl, hd⟩
    | true =>
      simp only [ptr.endpoints.Swap, swapIdx_some data (j + 1) j hj1 hj0]
      have hp := set_set_perm_self data (j + 1) j hj1 hj0
      exact ih _ (hp.trans hd) (Or.inl (by rw [hp.length_eq]; exact hj0))

theorem ptr_insertionOuter_some (l : ptr.endpoints)
    (hless : ∀ l1 : ptr.endpoints, l1.Perm l → ∀ i j, i < ptr.endpoints.Len l1 →
      j < ptr.endpoints.Len l1 → (ptr.endpoints.Less l1 i j).isSome = true) :
    ∀ (fuel i : Nat) (data : ptr.endpoints), data.Perm l → data.length - i < fuel →
      ∃ r, ptr.insertionOuter fuel i data = some r ∧ r.Perm l := by
  intro fuel
  induction fuel with
  | zero => intro i data _ h; omega
  | succ k ih =>
    intro i data hd hf
    simp only [ptr.insertionOuter, ptr.endpoints.Len]
    by_cases hi : i < data.length
    · obtain ⟨r, hr, hrp⟩ := ptr_insertionInner_some l hless i data hd (Or.inl hi)
      simp only [hi, if_true, hr]
      have hlen : r.length = data.length := (hrp.trans hd.symm).length_eq
      exact ih (i + 1) r hrp (by omega)
    · simp only [hi, if_false]
      exact ⟨data, rfl, hd⟩

theorem ptr_insertionSort_contract : ptr.SortContract ptr.insertionSort := by
  constructor
  intro l hless
  exact ptr_insertionOuter_some l hless _ 1 l (List.Perm.refl l)
    (by simp only [ptr.endpoints.Len]; omega)

/-- Index and slice ranges in the model with non-nil pointers: for every list state,
endpoint, input and permutation `p` of `0..n-1`, the shuffle loop of `set` runs through
and `set` returns; `Less` and `Swap` succeed on all indices below `Len`; `get` returns the
entry at index 0 whenever its guard holds; `all` returns a sequence of the stored length;
`mark` returns; and at every index `i` below the length the accesses `s.e[i]`, `s.e[i:]`,
`s.e[i+1:]` and the store at `len(s.e)-1` all succeed. -/
theorem operations_in_bounds (sortSort : endpoints → endpoints) (s : serverlist)
    (e : endpoint) (L : endpoints) (p : List Nat) (hp : p.Perm (List.range L.length)) :
    (∃ l1 s1, shuffle p L = some l1 ∧ s.set sortSort p L = some s1) ∧
    (∀ i j, i < endpoints.Len L → j < endpoints.Len L →
      (endpoints.Less L i j).isSome = true ∧ (endpoints.Swap L i j).isSome = true) ∧
    s.get.1.isSome = decide (0 < s.e.length) ∧
    s.all.1.length = s.e.length ∧
    (∃ s1, s.mark e = some s1) ∧
    (∀ i, i < s.e.length → ∃ x dst src es2, s.e[i]? = some x ∧
      sliceFrom s.e i = some dst ∧ sliceFrom s.e (i + 1) = some src ∧
      storeAt (s.e.take i ++ goCopy dst src) ((s.e.take i ++ goCopy dst src).length - 1) e
        = some es2) := by
  obtain ⟨l1, h1, _, h3⟩ := set_eq sortSort p s L hp
  refine ⟨⟨l1, _, h1, h3⟩, less_swap_some L, ?_, ?_, ⟨_, mark_eq s e⟩,
    mark_accesses e s.e⟩
  · cases s with
    | mk es =>
      cases es with
      | nil => simp [serverlist.get]
      | cons x xs => simp [serverlist.get]
  · simp [serverlist.all, goCopy_full]

/-- The outcome 1,2,0 on three endpoints; an index that is not below the length, as no
permutation of `0..n-1` holds, makes the shuffle loop fail. -/
theorem operations_in_bounds_witness :
    (∃ l1 s1, shuffle [1, 2, 0] [(⟨"A", "a", 1⟩ : endpoint), ⟨"B", "b", 0⟩, ⟨"C", "c", 0⟩]
        = some l1 ∧
      newServerList.set insertionSort [1, 2, 0]
        [⟨"A", "a", 1⟩, ⟨"B", "b", 0⟩, ⟨"C", "c", 0⟩] = some s1) ∧
    (∃ s1, newServerList.mark ⟨"A", "a", 1⟩ = some s1) ∧
    shuffle [1, 3, 0] [(⟨"A", "a", 1⟩ : endpoint), ⟨"B", "b", 0⟩, ⟨"C", "c", 0⟩] = none := by
  have h := operations_in_bounds insertionSort newServerList ⟨"A", "a", 1⟩
    [⟨"A", "a", 1⟩, ⟨"B", "b", 0⟩, ⟨"C", "c", 0⟩] [1, 2, 0] (by decide)
  exact ⟨h.1, h.2.2.2.2.1, by decide⟩

/-! ## Claims -/

/-- C1: for every previous state, input `L` and outcome of `rand.Perm(len(L))`, `set(L)`
installs a permutation of `L` (same length, same multiplicities) with non-decreasing
priorities, and the installed state is the same whatever the previous state was. -/
theorem set_sorted_perm (sortSort : endpoints → endpoints) (hs : SortContract sortSort)
    (s : serverlist) (L : endpoints) (p : List Nat) (hp : p.Perm (List.range L.length)) :
    ∃ s1, s.set sortSort p L = some s1 ∧ s1.e.Perm L ∧ s1.e.length = L.length ∧
      (∀ x, s1.e.count x = L.count x) ∧
      s1.e.Sorted (fun a b => a.priority ≤ b.priority) ∧
      ∀ s2 : serverlist, s2.set sortSort p L = some s1 := by
  obtain ⟨l1, h1, h2, h3⟩ := set_eq sortSort p s L hp
  have hperm : (sortSort l1).Perm L := (hs.perm l1).trans h2
  refine ⟨{ e := sortSort l1 }, h3, hperm, hperm.length_eq, ?_, hs.pairwise l1, ?_⟩
  · intro x; exact hperm.count_eq x
  · intro s2; simp [serverlist.set, h1]

/-- Instance of C1: a previous state holding Z, an input with a duplicate, the outcome 1,2,0
and the insertion sort. -/
theorem set_sorted_perm_witness :
    ∃ s1, (serverlist.mk [⟨"Z", "z", 0⟩]).set insertionSort [1, 2, 0]
        [⟨"A", "a", 1⟩, ⟨"B", "b", 0⟩, ⟨"B", "b", 0⟩] = some s1 ∧
      s1.e.Perm [⟨"A", "a", 1⟩, ⟨"B", "b", 0⟩, ⟨"B", "b", 0⟩] ∧ s1.e.length = 3 ∧
      (∀ x, s1.e.count x = [(⟨"A", "a", 1⟩ : endpoint), ⟨"B", "b", 0⟩, ⟨"B", "b", 0⟩].count x) ∧
      s1.e.Sorted (fun a b => a.priority ≤ b.priority) ∧
      ∀ s2 : serverlist, s2.set insertionSort [1, 2, 0]
        [⟨"A", "a", 1⟩, ⟨"B", "b", 0⟩, ⟨"B", "b", 0⟩] = some s1 :=
  set_sorted_perm insertionSort insertionSort_contract ⟨[⟨"Z", "z", 0⟩]⟩
    [⟨"A", "a", 1⟩, ⟨"B", "b", 0⟩, ⟨"B", "b", 0⟩] [1, 2, 0] (by decide)

/-- C2: when the first entry of the list equal to `e` sits at index `i`, `mark(e)` leaves
`s[0..i) ++ s[i+1..n) ++ [e]`: same length, the value passed in is last, and every other
entry (later entries equal to `e` included) keeps its relative order. -/
theorem mark_present (s : serverlist) (e : endpoint) (i : Nat) (hi : i < s.e.length)
    (heq : (s.e.get ⟨i, hi⟩).equal e = true)
    (hfirst : ∀ x ∈ s.e.take i, x.equal e = false) :
    ∃ s1, s.mark e = some s1 ∧
      s1.e = s.e.take i ++ s.e.drop (i + 1) ++ [e] ∧
      s1.e.length = s.e.length ∧ s1.e.getLast? = some e := by
  have hm : moveToEnd e s.e = s.e.take i ++ s.e.drop (i + 1) ++ [e] :=
    moveToEnd_first e s.e i hi (by simpa using heq) hfirst
  refine ⟨{ s with e := moveToEnd e s.e }, ?_, hm, moveToEnd_length e s.e, ?_⟩
  · simp [serverlist.mark, markSlice_eq]
  · simp [hm]

/-- Instance of C2: the first entry equal to B sits at index 1, a second one at index 3. -/
theorem mark_present_witness :
    ∃ s1, (serverlist.mk [⟨"A", "a", 0⟩, ⟨"B", "b", 0⟩, ⟨"C", "c", 1⟩, ⟨"B", "b", 2⟩]).mark
        ⟨"B", "b", 5⟩ = some s1 ∧
      s1.e = [⟨"A", "a", 0⟩] ++ [⟨"C", "c", 1⟩, ⟨"B", "b", 2⟩] ++ [⟨"B", "b", 5⟩] ∧
      s1.e.length = 4 ∧ s1.e.getLast? = some ⟨"B", "b", 5⟩ :=
  mark_present ⟨[⟨"A", "a", 0⟩, ⟨"B", "b", 0⟩, ⟨"C", "c", 1⟩, ⟨"B", "b", 2⟩]⟩ ⟨"B", "b", 5⟩ 1
    (by decide) (by decide) (by decide)

/-- C3: `get()` returns nil exactly when the stored sequence is empty and otherwise the
entry at index 0; it leaves the list state as it was; on a fresh list it returns nil. -/
theorem get_head (s : serverlist) :
    (s.get.1 = none ↔ s.e = []) ∧ s.get.1 = s.e[0]? ∧ s.get.1 = s.e.head? ∧
      s.get.2 = s ∧ newServerList.get.1 = none := by
  cases s with
  | mk e =>
    cases e with
    | nil => simp [serverlist.get, newServerList]
    | cons x xs => simp [serverlist.get, newServerList]

/-- C4: when no entry of the list is equal to `e`, `mark(e)` leaves the stored sequence
as it was, entry for entry; the empty list included. -/
theorem mark_absent (s : serverlist) (e : endpoint)
    (h : ∀ x ∈ s.e, x.equal e = false) : s.mark e = some s := by
  simp [serverlist.mark, markSlice_eq, moveToEnd_absent e s.e h]

/-- Instance of C4: an endpoint with a known name but another addr, and the empty list. -/
theorem mark_absent_witness :
    (serverlist.mk [⟨"A", "a", 0⟩, ⟨"B", "b", 1⟩]).mark ⟨"A", "b", 0⟩ =
        some ⟨[⟨"A", "a", 0⟩, ⟨"B", "b", 1⟩]⟩ ∧
      newServerList.mark ⟨"A", "b", 0⟩ = some newServerList :=
  ⟨mark_absent ⟨[⟨"A", "a", 0⟩, ⟨"B", "b", 1⟩]⟩ ⟨"A", "b", 0⟩ (by decide),
   mark_absent newServerList ⟨"A", "b", 0⟩ (by decide)⟩

/-- C5 as stated fails: handing the slice returned by `all()` back to `set` sorts that very
slice in place, so it no longer equals the sequence stored at the time of the `all()` call. -/
theorem all_snapshot_passed_to_set :
    ∃ w2, (heap.mk [[], [⟨"Y", "y", 1⟩, ⟨"X", "x", 0⟩]] ⟨1, 0, 2⟩).all.2.set insertionSort
        [0, 1] (heap.mk [[], [⟨"Y", "y", 1⟩, ⟨"X", "x", 0⟩]] ⟨1, 0, 2⟩).all.1 = some w2 ∧
      (heap.mk [[], [⟨"Y", "y", 1⟩, ⟨"X", "x", 0⟩]] ⟨1, 0, 2⟩).stored
        = [⟨"Y", "y", 1⟩, ⟨"X", "x", 0⟩] ∧
      w2.mem.read (heap.mk [[], [⟨"Y", "y", 1⟩, ⟨"X", "x", 0⟩]] ⟨1, 0, 2⟩).all.1
        = [⟨"X", "x", 0⟩, ⟨"Y", "y", 1⟩] ∧
      w2.mem.read (heap.mk [[], [⟨"Y", "y", 1⟩, ⟨"X", "x", 0⟩]] ⟨1, 0, 2⟩).all.1
        ≠ (heap.mk [[], [⟨"Y", "y", 1⟩, ⟨"X", "x", 0⟩]] ⟨1, 0, 2⟩).stored :=
  ⟨⟨[[], [⟨"Y", "y", 1⟩, ⟨"X", "x", 0⟩], [⟨"X", "x", 0⟩, ⟨"Y", "y", 1⟩]], ⟨2, 0, 2⟩⟩,
    by decide, by decide, by decide, by decide⟩

/-- C5 (amended): `all()` returns a sequence equal in length, contents and order to the
stored one and leaves the stored one unchanged; the returned slice has a backing array of
its own, so it still holds the same sequence after every later `mark(e)` and after every
later `set(L)` whose argument `L` is not backed by the returned array itself, and after
any sequence of such calls. -/
theorem all_is_snapshot (sortSort : endpoints → endpoints) (w : heap)
    (hv : w.e.valid w.mem) :
    (w.all.2.mem.read w.all.1 = w.stored ∧ w.all.1.len = w.e.len) ∧
    (w.all.2.stored = w.stored ∧ w.all.2.e = w.e) ∧
    (∀ s : serverlist, s.all = (s.e, s)) ∧
    (∀ e, ∃ w2, w.all.2.mark e = some w2 ∧ w2.mem.read w.all.1 = w.stored) ∧
    (∀ p L, L.arr ≠ w.all.1.arr → p.Perm (List.range (w.all.2.mem.read L).length) →
      ∃ w2, w.all.2.set sortSort p L = some w2 ∧ w2.mem.read w.all.1 = w.stored) ∧
    (∀ cs w2, (∀ p L, call.set p L ∈ cs → L.arr ≠ w.all.1.arr) →
      heap.run sortSort cs w.all.2 = some w2 → w2.mem.read w.all.1 = w.stored) := by
  have hout := heap.all_out w hv
  have hne : w.all.2.e.arr ≠ w.all.1.arr := by
    simpa [heap.all] using Nat.ne_of_lt hv.1
  refine ⟨⟨hout, rfl⟩, ⟨heap.all_stored w hv, rfl⟩, ?_, ?_, ?_, ?_⟩
  · intro s
    simp [serverlist.all, goCopy_full]
  · intro e
    refine ⟨_, heap.mark_some _ e, ?_⟩
    rw [← hout]
    exact memory.read_write_other _ _ _ _ hne
  · intro p L hL hp
    obtain ⟨l1, h1, _⟩ := shuffle_some p _ hp
    refine ⟨{ mem := w.all.2.mem.write L (sortSort l1), e := L },
      by simp only [heap.set, h1], ?_⟩
    rw [← hout]
    exact memory.read_write_other _ _ _ _ hL
  · intro cs w2 hcs h
    rw [← hout]
    exact heap.run_frame sortSort w.all.1 cs w.all.2 w2 hne hcs h

/-- Instance of C5: the list holds Y, X; after `all()` and `mark(Y)` the list holds X, Y and
the returned slice still holds Y, X. -/
theorem all_is_snapshot_witness :
    ∃ w2, (heap.mk [[], [⟨"Y", "y", 1⟩, ⟨"X", "x", 0⟩]] ⟨1, 0, 2⟩).all.2.mark ⟨"Y", "y", 1⟩
        = some w2 ∧
      w2.stored = [⟨"X", "x", 0⟩, ⟨"Y", "y", 1⟩] ∧
      w2.mem.read (heap.mk [[], [⟨"Y", "y", 1⟩, ⟨"X", "x", 0⟩]] ⟨1, 0, 2⟩).all.1
        = [⟨"Y", "y", 1⟩, ⟨"X", "x", 0⟩] := by
  obtain ⟨w2, h1, h2⟩ := (all_is_snapshot insertionSort
    (heap.mk [[], [⟨"Y", "y", 1⟩, ⟨"X", "x", 0⟩]] ⟨1, 0, 2⟩)
    ⟨by decide, by decide⟩).2.2.2.1 ⟨"Y", "y", 1⟩
  refine ⟨w2, h1, ?_, h2⟩
  have h3 : (heap.mk [[], [⟨"Y", "y", 1⟩, ⟨"X", "x", 0⟩]] ⟨1, 0, 2⟩).all.2.mark ⟨"Y", "y", 1⟩
      = some ⟨[[], [⟨"X", "x", 0⟩, ⟨"Y", "y", 1⟩], [⟨"Y", "y", 1⟩, ⟨"X", "x", 0⟩]], ⟨1, 0, 2⟩⟩ := by
    decide
  rw [h3] at h1
  cases h1
  decide

/-- C6 at the failing input: on a two-element list both outcomes of `rand.Perm(2)` leave
the order as it was, so the arrangement `[a, b]` is produced by two outcomes and the
arrangement `[b, a]` by none; on three elements four of the six outcomes leave the order
as it was and the reversed arrangement is produced by none. -/
theorem shuffle_two_is_identity :
    (∀ a b : endpoint, shuffle [0, 1] [a, b] = some [a, b] ∧
      shuffle [1, 0] [a, b] = some [a, b]) ∧
    (List.range 2).permutations' = [[0, 1], [1, 0]] ∧
    producedBy [⟨"A", "a", 0⟩, ⟨"B", "b", 0⟩] [⟨"A", "a", 0⟩, ⟨"B", "b", 0⟩] = 2 ∧
    producedBy [⟨"A", "a", 0⟩, ⟨"B", "b", 0⟩] [⟨"B", "b", 0⟩, ⟨"A", "a", 0⟩] = 0 ∧
    producedBy [⟨"A", "a", 0⟩, ⟨"B", "b", 0⟩, ⟨"C", "c", 0⟩]
      [⟨"A", "a", 0⟩, ⟨"B", "b", 0⟩, ⟨"C", "c", 0⟩] = 4 ∧
    producedBy [⟨"A", "a", 0⟩, ⟨"B", "b", 0⟩, ⟨"C", "c", 0⟩]
      [⟨"C", "c", 0⟩, ⟨"B", "b", 0⟩, ⟨"A", "a", 0⟩] = 0 := by
  refine ⟨fun a b => ⟨rfl, rfl⟩, by decide, by decide, by decide, by decide, by decide⟩

/-- C7 at the failing input: for a list of two endpoints, both outcomes of `rand.Perm(2)`
make `set` install the same sequence, whatever the sort does; with the insertion sort the
two equal-priority endpoints A and B are always installed as A, B. -/
theorem set_two_same_order :
    (∀ (sortSort : endpoints → endpoints) (s : serverlist) (a b : endpoint),
      (List.range 2).permutations'.map (fun p => s.set sortSort p [a, b]) =
        [some ⟨sortSort [a, b]⟩, some ⟨sortSort [a, b]⟩]) ∧
    (List.range 2).permutations'.map
        (fun p => newServerList.set insertionSort p [⟨"A", "a", 0⟩, ⟨"B", "b", 0⟩]) =
      [some ⟨[⟨"A", "a", 0⟩, ⟨"B", "b", 0⟩]⟩, some ⟨[⟨"A", "a", 0⟩, ⟨"B", "b", 0⟩]⟩] := by
  refine ⟨fun sortSort s a b => ?_, by decide⟩
  have hp : (List.range 2).permutations' = [[0, 1], [1, 0]] := by decide
  have h1 : shuffle [0, 1] [a, b] = some [a, b] := rfl
  have h2 : shuffle [1, 0] [a, b] = some [a, b] := rfl
  simp [hp, serverlist.set, h1, h2]

/-- C8 as stated fails: marking with a value that carries another priority than the stored
entry of the same identity replaces the stored priority. -/
theorem mark_overwrites_priority :
    (serverlist.mk [⟨"A", "a", 0⟩, ⟨"B", "b", 1⟩]).mark ⟨"A", "a", 7⟩ =
        some ⟨[⟨"B", "b", 1⟩, ⟨"A", "a", 7⟩]⟩ ∧
      ¬ ([(⟨"B", "b", 1⟩ : endpoint), ⟨"A", "a", 7⟩]).Perm [⟨"A", "a", 0⟩, ⟨"B", "b", 1⟩] := by
  refine ⟨by decide, ?_⟩
  intro h
  have := h.count_eq (⟨"A", "a", 7⟩ : endpoint)
  revert this
  decide

/-- C8 (amended): `mark(e)` always returns, keeps the multiset of (name, addr) identities,
and replaces the first entry equal to `e` (if any) by the value `e` passed in, leaving all
other entries as they are; the result is a rearrangement of the stored values, priorities
included, exactly when that first entry has the priority of `e` (or no entry equals `e`). -/
theorem mark_keeps_identities (s : serverlist) (e : endpoint) :
    ∃ s1, s.mark e = some s1 ∧
      (s1.e.map endpoint.ident).Perm (s.e.map endpoint.ident) ∧
      (∀ x, s.e.find? (fun y => y.equal e) = some x → s1.e.Perm (e :: s.e.erase x)) ∧
      (s.e.find? (fun y => y.equal e) = none → s1 = s) ∧
      (s1.e.Perm s.e ↔
        ∀ x, s.e.find? (fun y => y.equal e) = some x → x.priority = e.priority) := by
  refine ⟨{ s with e := moveToEnd e s.e }, by simp [serverlist.mark, markSlice_eq],
    moveToEnd_ident e s.e, fun x hx => moveToEnd_erase e s.e x hx, ?_,
    moveToEnd_perm_iff e s.e⟩
  intro hf
  have : moveToEnd e s.e = s.e :=
    moveToEnd_absent e s.e (fun x hx => by simpa using List.find?_eq_none.1 hf x hx)
  simp [this]

/-- Instance of C8: marking with the stored value itself rearranges the list. -/
theorem mark_keeps_identities_witness :
    ∃ s1, (serverlist.mk [⟨"A", "a", 0⟩, ⟨"B", "b", 1⟩]).mark ⟨"A", "a", 0⟩ = some s1 ∧
      s1.e.Perm [⟨"A", "a", 0⟩, ⟨"B", "b", 1⟩] := by
  obtain ⟨s1, h1, _, _, _, h5⟩ :=
    mark_keeps_identities ⟨[⟨"A", "a", 0⟩, ⟨"B", "b", 1⟩]⟩ ⟨"A", "a", 0⟩
  exact ⟨s1, h1, h5.2 (by decide)⟩

/-- C9 as stated fails: with two entries of the identity of `e` at the head and a third,
different endpoint in the list, `get()` after `mark(e)` still returns an endpoint equal
to `e`. -/
theorem mark_duplicate_still_first :
    (∃ x ∈ (serverlist.mk [⟨"A", "a", 0⟩, ⟨"A", "a", 0⟩, ⟨"B", "b", 0⟩]).e,
      x.equal ⟨"A", "a", 0⟩ = false) ∧
    (serverlist.mk [⟨"A", "a", 0⟩, ⟨"A", "a", 0⟩, ⟨"B", "b", 0⟩]).mark ⟨"A", "a", 0⟩ =
      some ⟨[⟨"A", "a", 0⟩, ⟨"B", "b", 0⟩, ⟨"A", "a", 0⟩]⟩ ∧
    (serverlist.mk [⟨"A", "a", 0⟩, ⟨"B", "b", 0⟩, ⟨"A", "a", 0⟩]).get.1 =
      some ⟨"A", "a", 0⟩ ∧
    (⟨"A", "a", 0⟩ : endpoint).equal ⟨"A", "a", 0⟩ = true := by
  refine ⟨⟨⟨"B", "b", 0⟩, by decide, by decide⟩, by decide, by decide, by decide⟩

/-- C9 (amended): when the list holds an entry whose identity differs from that of `e`,
`mark(e)` returns and `get()` then returns an endpoint; that endpoint is not equal to `e`
exactly when the first two entries of the list were not both equal to `e` (so in
particular whenever at most one entry is equal to `e`). -/
theorem mark_then_get (s : serverlist) (e : endpoint)
    (hdiff : ∃ x ∈ s.e, x.equal e = false) :
    ∃ s1 h, s.mark e = some s1 ∧ s1.get.1 = some h ∧
      (h.equal e = false ↔
        ¬ ∃ x y t, s.e = x :: y :: t ∧ x.equal e = true ∧ y.equal e = true) := by
  obtain ⟨z, hz, hze⟩ := hdiff
  have hm : s.mark e = some { s with e := moveToEnd e s.e } := by
    simp [serverlist.mark, markSlice_eq]
  cases hs : s.e with
  | nil => rw [hs] at hz; simp at hz
  | cons x r =>
    cases r with
    | nil =>
      rw [hs] at hz
      have hzx : z = x := by simpa using hz
      subst hzx
      refine ⟨_, z, hm, ?_, ?_⟩
      · simp [serverlist.get, hs, moveToEnd, hze]
      · simp [hze]
    | cons y t =>
      by_cases hx : x.equal e = true
      · refine ⟨_, y, hm, ?_, ?_⟩
        · simp [serverlist.get, hs, moveToEnd, hx]
        · simp [hx]
      · have hx2 : x.equal e = false := by simpa using hx
        refine ⟨_, x, hm, ?_, ?_⟩
        · simp [serverlist.get, hs, moveToEnd, hx2]
        · simp [hx2]

/-- Instance of C9: the two entries equal to A are not both at the head; `get()` gives B. -/
theorem mark_then_get_witness :
    ∃ s1 h, (serverlist.mk [⟨"A", "a", 0⟩, ⟨"B", "b", 0⟩, ⟨"A", "a", 1⟩]).mark
        ⟨"A", "a", 0⟩ = some s1 ∧ s1.get.1 = some h ∧ h.equal ⟨"A", "a", 0⟩ = false := by
  obtain ⟨s1, h, h1, h2, h3⟩ :=
    mark_then_get ⟨[⟨"A", "a", 0⟩, ⟨"B", "b", 0⟩, ⟨"A", "a", 1⟩]⟩ ⟨"A", "a", 0⟩
      ⟨⟨"B", "b", 0⟩, by decide, by decide⟩
  refine ⟨s1, h, h1, h2, h3.2 ?_⟩
  rintro ⟨x, y, t, hxy, _, hy⟩
  simp only [List.cons.injEq] at hxy
  obtain ⟨_, rfl, _⟩ := hxy
  revert hy
  decide

/-- C10: for every non-empty input `L` and every outcome of `rand.Perm`, `set(L)` returns
and `get()` right after it returns a member of `L` whose priority is the minimum over `L`.
After `set([A/1, B/0, C/0])` the sequence is B,C,A or C,B,A and `get()` returns B or C. -/
theorem get_after_set (sortSort : endpoints → endpoints) (hs : SortContract sortSort)
    (s : serverlist) (L : endpoints) (p : List Nat) (hL : L ≠ [])
    (hp : p.Perm (List.range L.length)) :
    ∃ s1 h, s.set sortSort p L = some s1 ∧ s1.get.1 = some h ∧ h ∈ L ∧
      (∀ x ∈ L, h.priority ≤ x.priority) ∧
      (L = [⟨"A", "a", 1⟩, ⟨"B", "b", 0⟩, ⟨"C", "c", 0⟩] →
        (s1.e = [⟨"B", "b", 0⟩, ⟨"C", "c", 0⟩, ⟨"A", "a", 1⟩] ∨
          s1.e = [⟨"C", "c", 0⟩, ⟨"B", "b", 0⟩, ⟨"A", "a", 1⟩]) ∧
        (h = ⟨"B", "b", 0⟩ ∨ h = ⟨"C", "c", 0⟩)) := by
  obtain ⟨l1, _, h2, h3⟩ := set_eq sortSort p s L hp
  have hperm : (sortSort l1).Perm L := (hs.perm l1).trans h2
  have hsorted := hs.pairwise l1
  cases hl : sortSort l1 with
  | nil =>
    rw [hl] at hperm
    exact absurd hperm.symm.eq_nil hL
  | cons h t =>
    rw [hl] at hperm hsorted
    refine ⟨{ e := h :: t }, h, by rw [h3, hl], by simp [serverlist.get],
      hperm.subset (List.mem_cons_self h t), ?_, ?_⟩
    · intro x hx
      have hx2 : x ∈ h :: t := hperm.symm.subset hx
      rcases List.mem_cons.1 hx2 with rfl | hxt
      · exact le_refl _
      · exact List.rel_of_pairwise_cons hsorted hxt
    · intro hLe
      rw [hLe] at hperm
      have := sorted_abc (h :: t) hperm hsorted
      refine ⟨this, ?_⟩
      rcases this with h4 | h4
      · exact Or.inl (List.cons.inj h4).1
      · exact Or.inr (List.cons.inj h4).1

/-- Instance of C10: the example of the specification with the outcome 1,2,0 and the
insertion sort. -/
theorem get_after_set_witness :
    ∃ s1 h, newServerList.set insertionSort [1, 2, 0]
        [⟨"A", "a", 1⟩, ⟨"B", "b", 0⟩, ⟨"C", "c", 0⟩] = some s1 ∧ s1.get.1 = some h ∧
      (s1.e = [⟨"B", "b", 0⟩, ⟨"C", "c", 0⟩, ⟨"A", "a", 1⟩] ∨
        s1.e = [⟨"C", "c", 0⟩, ⟨"B", "b", 0⟩, ⟨"A", "a", 1⟩]) ∧
      (h = ⟨"B", "b", 0⟩ ∨ h = ⟨"C", "c", 0⟩) := by
  obtain ⟨s1, h, h1, h2, _, _, h5⟩ :=
    get_after_set insertionSort insertionSort_contract newServerList
      [⟨"A", "a", 1⟩, ⟨"B", "b", 0⟩, ⟨"C", "c", 0⟩] [1, 2, 0] (by decide) (by decide)
  exact ⟨s1, h, h1, h2, (h5 rfl).1, (h5 rfl).2⟩

/-- C11: after `set(L)` followed by any sequence of `mark` calls, the stored sequence
splits as `P ++ T` where `P` is a subsequence of the sequence installed by `set`, hence of
non-decreasing priority, and `T` is a subsequence of the values passed to `mark`, in the
order of the calls, so `T` has at most as many entries as there were calls and holds
marked values only.  Every marked endpoint whose identity occurs in `L` has an entry of
its identity in `T`; the endpoint of the last call, if its identity occurs in `L`, is the
last entry; and the identities stored are those of `L`, with their multiplicities. -/
theorem order_invariant (sortSort : endpoints → endpoints) (hs : SortContract sortSort)
    (s : serverlist) (L : endpoints) (p : List Nat) (hp : p.Perm (List.range L.length))
    (marks : List endpoint) :
    ∃ s1 s2 P T, s.set sortSort p L = some s1 ∧ markAll marks s1 = some s2 ∧
      s2.e = P ++ T ∧ P.Pairwise (fun a b => a.priority ≤ b.priority) ∧
      T.length ≤ marks.length ∧ (∀ t ∈ T, t ∈ marks) ∧
      P.Sublist s1.e ∧ T.Sublist marks ∧
      (∀ m ∈ marks, (∃ x ∈ L, x.equal m = true) → ∃ t ∈ T, t.equal m = true) ∧
      (∀ ms e, marks = ms ++ [e] → (∃ x ∈ L, x.equal e = true) →
        s2.e.getLast? = some e) ∧
      (s2.e.map endpoint.ident).Perm (L.map endpoint.ident) := by
  obtain ⟨l1, _, hl1, h3⟩ := set_eq sortSort p s L hp
  have hperm : (sortSort l1).Perm L := (hs.perm l1).trans hl1
  have hidL : ((sortSort l1).map endpoint.ident).Perm (L.map endpoint.ident) :=
    hperm.map _
  have hpres : ∀ m : endpoint, (∃ x ∈ L, x.equal m = true) →
      m.ident ∈ (sortSort l1).map endpoint.ident := by
    intro m hm
    exact hidL.mem_iff.2 ((ident_mem_iff m L).2 hm)
  obtain ⟨s2, P, T, k1, k2, k3, k4, k5, k6⟩ :=
    markAll_invariant marks [] { e := sortSort l1 } (sortSort l1) [] (sortSort l1)
      (by simp) (List.Sublist.refl _) (List.Sublist.refl _) (by simp)
  have k4m : T.Sublist marks := by simpa using k4
  refine ⟨{ e := sortSort l1 }, s2, P, T, h3, k1, k2, (hs.pairwise l1).sublist k3,
    k4m.length_le, fun t ht => k4m.subset ht, k3, k4m, ?_, ?_, k5.trans hidL⟩
  · intro m hm hin
    exact k6 m (by simpa using hm) (hpres m hin)
  · intro ms e hms hin
    subst hms
    obtain ⟨r, _, _, r1, _, _, _, r5, _⟩ :=
      markAll_invariant ms [] { e := sortSort l1 } (sortSort l1) [] (sortSort l1)
        (by simp) (List.Sublist.refl _) (List.Sublist.refl _) (by simp)
    rw [markAll_append, r1, Option.some_bind, mark_eq] at k1
    cases k1
    apply moveToEnd_getLast
    exact (ident_mem_iff e r.e).1 (r5.mem_iff.2 (hpres e hin))

/-- Instance of C11: after `set` the list holds C, B, A; marking C and then B leaves
A, C, B, that is `[A] ++ [C, B]`, with B, the last endpoint marked, as the last entry. -/
theorem order_invariant_witness :
    ∃ s1 s2 P T, newServerList.set insertionSort [1, 2, 0]
        [⟨"A", "a", 1⟩, ⟨"B", "b", 0⟩, ⟨"C", "c", 0⟩] = some s1 ∧
      markAll [⟨"C", "c", 0⟩, ⟨"B", "b", 0⟩] s1 = some s2 ∧
      s2.e = P ++ T ∧ P.Pairwise (fun a b => a.priority ≤ b.priority) ∧
      P.Sublist s1.e ∧ T.Sublist [(⟨"C", "c", 0⟩ : endpoint), ⟨"B", "b", 0⟩] ∧
      (∃ t ∈ T, t.equal ⟨"C", "c", 0⟩ = true) ∧
      s2.e.getLast? = some ⟨"B", "b", 0⟩ ∧
      s2.e = [⟨"A", "a", 1⟩, ⟨"C", "c", 0⟩, ⟨"B", "b", 0⟩] := by
  obtain ⟨s1, s2, P, T, h1, h2, h3, h4, _, _, h7, h8, h9, h10, _⟩ :=
    order_invariant insertionSort insertionSort_contract newServerList
      [⟨"A", "a", 1⟩, ⟨"B", "b", 0⟩, ⟨"C", "c", 0⟩] [1, 2, 0] (by decide)
      [⟨"C", "c", 0⟩, ⟨"B", "b", 0⟩]
  refine ⟨s1, s2, P, T, h1, h2, h3, h4, h7, h8,
    h9 ⟨"C", "c", 0⟩ (by decide) ⟨⟨"C", "c", 0⟩, by decide, by decide⟩,
    h10 [⟨"C", "c", 0⟩] ⟨"B", "b", 0⟩ rfl ⟨⟨"B", "b", 0⟩, by decide, by decide⟩, ?_⟩
  have e1 : newServerList.set insertionSort [1, 2, 0]
      [⟨"A", "a", 1⟩, ⟨"B", "b", 0⟩, ⟨"C", "c", 0⟩] =
      some ⟨[⟨"C", "c", 0⟩, ⟨"B", "b", 0⟩, ⟨"A", "a", 1⟩]⟩ := by decide
  rw [e1] at h1
  cases h1
  have e2 : markAll [⟨"C", "c", 0⟩, ⟨"B", "b", 0⟩]
      ⟨[⟨"C", "c", 0⟩, ⟨"B", "b", 0⟩, ⟨"A", "a", 1⟩]⟩ =
      some ⟨[⟨"A", "a", 1⟩, ⟨"C", "c", 0⟩, ⟨"B", "b", 0⟩]⟩ := by decide
  rw [e2] at h2
  cases h2
  rfl

/-- C12: `a.equal(b)` is true exactly when the names and the addrs are the same; the
priorities play no role; and `equal` is reflexive, symmetric and transitive. -/
theorem equal_is_identity (a b c : endpoint) (hab : a.equal b = true)
    (hbc : b.equal c = true) :
    (∀ x y : endpoint, x.equal y = true ↔ x.name = y.name ∧ x.addr = y.addr) ∧
    (∀ (x y : endpoint) (p q : Int),
      ({ x with priority := p } : endpoint).equal { y with priority := q } = x.equal y) ∧
    (∀ x : endpoint, x.equal x = true) ∧
    (∀ x y : endpoint, x.equal y = y.equal x) ∧
    a.equal c = true := by
  refine ⟨equal_iff, ?_, ?_, ?_, ?_⟩
  · intro x y p q; simp [endpoint.equal]
  · intro x; simp [endpoint.equal]
  · intro x y
    simp only [endpoint.equal]
    rw [Bool.eq_iff_iff]
    simp only [Bool.and_eq_true, beq_iff_eq]
    exact ⟨fun h => ⟨h.1.symm, h.2.symm⟩, fun h => ⟨h.1.symm, h.2.symm⟩⟩
  · rw [equal_iff] at hab hbc ⊢
    exact ⟨hab.1.trans hbc.1, hab.2.trans hbc.2⟩

/-- Instance of C12: three endpoints of one identity and three different priorities. -/
theorem equal_is_identity_witness :
    (⟨"A", "a", 0⟩ : endpoint).equal ⟨"A", "a", 2⟩ = true :=
  (equal_is_identity ⟨"A", "a", 0⟩ ⟨"A", "a", 1⟩ ⟨"A", "a", 2⟩ (by decide) (by decide)).2.2.2.2

/-- C16: on a non-empty list `mark(get())` is a left rotation by one, `[x0, x1, ..]`
becomes `[x1, .., x0]`; with two entries or more the next `get()` returns the former
second entry; and `mark(get())` repeated as many times as the list has entries restores
the list. -/
theorem mark_head_rotates (s : serverlist) (hne : s.e ≠ []) :
    (∃ x xs, s.e = x :: xs ∧ markGet s = some { e := xs ++ [x] }) ∧
    (∃ s1, markGet s = some s1 ∧ s1.e = s.e.rotate 1 ∧
      (2 ≤ s.e.length → s1.get.1 = s.e[1]? ∧ s1.get.1 ≠ none)) ∧
    (∀ k, markGetN k s = some { e := s.e.rotate k }) ∧
    markGetN s.e.length s = some s := by
  cases s with
  | mk e =>
    cases e with
    | nil => exact absurd rfl hne
    | cons x xs =>
      refine ⟨⟨x, xs, rfl, markGet_cons x xs⟩, ⟨_, markGet_rotate _, rfl, ?_⟩,
        fun k => markGetN_rotate k _, ?_⟩
      · intro h2
        cases xs with
        | nil => simp at h2
        | cons y ys => simp [serverlist.get, List.rotate_cons_succ]
      · rw [markGetN_rotate, List.rotate_length]

/-- Instance of C16: a list with a duplicate identity, rotated once and three times. -/
theorem mark_head_rotates_witness :
    markGet ⟨[⟨"A", "a", 0⟩, ⟨"A", "a", 0⟩, ⟨"B", "b", 1⟩]⟩ =
        some ⟨[⟨"A", "a", 0⟩, ⟨"B", "b", 1⟩, ⟨"A", "a", 0⟩]⟩ ∧
      markGetN 3 ⟨[⟨"A", "a", 0⟩, ⟨"A", "a", 0⟩, ⟨"B", "b", 1⟩]⟩ =
        some ⟨[⟨"A", "a", 0⟩, ⟨"A", "a", 0⟩, ⟨"B", "b", 1⟩]⟩ := by
  have h := mark_head_rotates ⟨[⟨"A", "a", 0⟩, ⟨"A", "a", 0⟩, ⟨"B", "b", 1⟩]⟩ (by decide)
  obtain ⟨⟨x, xs, h1, h2⟩, _, _, h4⟩ := h
  refine ⟨?_, h4⟩
  simp only [List.cons.injEq] at h1
  obtain ⟨rfl, rfl⟩ := h1
  exact h2

/-- C17: when at most one entry of the list is equal to `e`, calling `mark(e)` twice
leaves the same sequence as calling it once. -/
theorem mark_idempotent (s : serverlist) (e : endpoint)
    (huniq : s.e.countP (fun x => x.equal e) ≤ 1) :
    ∃ s1, s.mark e = some s1 ∧ s1.mark e = some s1 := by
  refine ⟨{ e := moveToEnd e s.e }, mark_eq s e, ?_⟩
  rw [mark_eq]
  simp only [moveToEnd_idem e s.e huniq]

/-- Instance of C17: B occurs once; marking it once or twice leaves A, C, B. -/
theorem mark_idempotent_witness :
    ∃ s1, (serverlist.mk [⟨"A", "a", 0⟩, ⟨"B", "b", 0⟩, ⟨"C", "c", 1⟩]).mark ⟨"B", "b", 0⟩
        = some s1 ∧ s1.mark ⟨"B", "b", 0⟩ = some s1 :=
  mark_idempotent ⟨[⟨"A", "a", 0⟩, ⟨"B", "b", 0⟩, ⟨"C", "c", 1⟩]⟩ ⟨"B", "b", 0⟩ (by decide)

/-- C13 as stated fails, in two ways.  With the fresh list and the outcome 0,1, `set` on
the input `[nil, A]` gets through the shuffle loop and panics in `Less`, which dereferences
the nil entry.  And with a list and an argument that are non-nil, `mark` panics when the
names are the same and the two addrs have one uncomparable dynamic type. -/
theorem set_panics_on_nil_entry :
    (∀ x ∈ ptr.newServerList.e, x ≠ none) ∧ [0, 1].Perm (List.range 2) ∧
    shuffle [0, 1] [(none : Option ptr.endpoint), some ⟨"A", none, 0⟩] =
      some [none, some ⟨"A", none, 0⟩] ∧
    ptr.endpoints.Less [none, some ⟨"A", none, 0⟩] 1 0 = none ∧
    ptr.serverlist.set ptr.insertionSort [0, 1] ptr.newServerList
      [none, some ⟨"A", none, 0⟩] = none ∧
    ptr.serverlist.mark ⟨[some ⟨"A", some (⟨"T", false⟩, "v"), 0⟩]⟩
      (some ⟨"A", some (⟨"T", false⟩, "v"), 0⟩) = none := by
  refine ⟨by decide, by decide, by decide, by decide, by decide, by decide⟩

/-- C13 (amended): for every list state whose entries are all non-nil, every non-nil
endpoint argument whose addr is nil or of a comparable dynamic type, every input sequence
whose entries are all non-nil and every permutation `p` of `0..n-1`, no operation panics:
`set` returns and installs a rearrangement of the input, `get` and `all` return and leave
the state as it is, `mark` returns a list of the same length, and the lists stay free of
nil entries.  Every index and slice access is in range: in `mark`, at every index `i`
below the length, `s.e[i]`, `s.e[i:]`, `s.e[i+1:]` and the store at `len(s.e)-1` succeed,
and `Less` and `Swap` succeed on all indices below `Len`. -/
theorem operations_never_panic (sortSort : ptr.endpoints → Option ptr.endpoints)
    (hs : ptr.SortContract sortSort) (s : ptr.serverlist) (e : ptr.endpoint)
    (L : ptr.endpoints) (p : List Nat)
    (hstate : ∀ x ∈ s.e, x ≠ none) (hL : ∀ x ∈ L, x ≠ none)
    (hp : p.Perm (List.range L.length)) (he : ptr.addrComparable e.addr = true) :
    (∃ s1, s.set sortSort p L = some s1 ∧ s1.e.Perm L ∧ ∀ x ∈ s1.e, x ≠ none) ∧
    (∃ r, s.get = some r ∧ (r.1 = none ↔ s.e = []) ∧ r.1 = s.e[0]?.join ∧ r.2 = s) ∧
    (∃ r, s.all = some r ∧ r.1 = s.e ∧ r.2 = s) ∧
    (∃ s1, s.mark (some e) = some s1 ∧ s1.e.length = s.e.length ∧
      ∀ x ∈ s1.e, x ≠ none) ∧
    (∀ i, i < s.e.length → ∃ x dst src, s.e[i]? = some x ∧
      sliceFrom s.e i = some dst ∧ sliceFrom s.e (i + 1) = some src ∧
      storeAt (s.e.take i ++ goCopy dst src) ((s.e.take i ++ goCopy dst src).length - 1)
        (some e) = some (s.e.take i ++ s.e.drop (i + 1) ++ [some e])) ∧
    (∀ i j, i < ptr.endpoints.Len L → j < ptr.endpoints.Len L →
      (ptr.endpoints.Less L i j).isSome = true ∧
        (ptr.endpoints.Swap L i j).isSome = true) := by
  refine ⟨?_, ?_, ?_, ?_, fun i hi => slice_accesses (some e) s.e i hi, ?_⟩
  · obtain ⟨l1, h1, h2⟩ := shuffle_some p L hp
    have hl1 : ∀ l2 : ptr.endpoints, l2.Perm l1 → ∀ x ∈ l2, x ≠ none :=
      fun l2 h x hx => hL x ((h.trans h2).subset hx)
    obtain ⟨r, hr, hrp⟩ := hs.returns l1
      (fun l2 h i j hi hj => ptr_less_some l2 (hl1 l2 h) i j hi hj)
    refine ⟨{ e := r }, by simp [ptr.serverlist.set, h1, hr], hrp.trans h2,
      hl1 r hrp⟩
  · cases s with
    | mk es =>
      cases es with
      | nil => exact ⟨(none, ⟨[]⟩), by simp [ptr.serverlist.get], by simp, by simp, rfl⟩
      | cons x xs =>
        have hx : x ≠ none := hstate x (by simp)
        exact ⟨(x, ⟨x :: xs⟩), by simp [ptr.serverlist.get], by simp [hx], by simp, rfl⟩
  · exact ⟨(s.e, s), by simp [ptr.serverlist.all, goCopy_full], rfl, rfl⟩
  · obtain ⟨r, h1, h2, h3⟩ :=
      ptr_markLoop_some e he s.e hstate (s.e.length + 1) 0 (by omega)
    exact ⟨{ e := r }, by simp [ptr.serverlist.mark, h1], h2, h3⟩
  · intro i j hi hj
    refine ⟨ptr_less_some L hL i j hi hj, ?_⟩
    simp only [ptr.endpoints.Len] at hi hj
    simp [ptr.endpoints.Swap, swapIdx_some L i j hi hj]

/-- Instance of C13: three non-nil endpoints, one with an addr of a comparable dynamic
type, under the insertion sort and the outcome 1,2,0; `set` and `mark` return. -/
theorem operations_never_panic_witness :
    (∃ s1, ptr.serverlist.set ptr.insertionSort [1, 2, 0] ptr.newServerList
        [some ⟨"A", some (⟨"TCPAddr", true⟩, "a"), 1⟩, some ⟨"B", none, 0⟩,
          some ⟨"C", none, 0⟩] = some s1 ∧
      s1.e.Perm [some ⟨"A", some (⟨"TCPAddr", true⟩, "a"), 1⟩, some ⟨"B", none, 0⟩,
        some ⟨"C", none, 0⟩]) ∧
    (∃ s1, ptr.serverlist.mark
        ⟨[some ⟨"C", none, 0⟩, some ⟨"A", some (⟨"TCPAddr", true⟩, "b"), 1⟩]⟩
        (some ⟨"A", some (⟨"TCPAddr", true⟩, "a"), 1⟩) = some s1 ∧ s1.e.length = 2) := by
  have h := operations_never_panic ptr.insertionSort ptr_insertionSort_contract
    ⟨[some ⟨"C", none, 0⟩, some ⟨"A", some (⟨"TCPAddr", true⟩, "b"), 1⟩]⟩
    ⟨"A", some (⟨"TCPAddr", true⟩, "a"), 1⟩
    [some ⟨"A", some (⟨"TCPAddr", true⟩, "a"), 1⟩, some ⟨"B", none, 0⟩, some ⟨"C", none, 0⟩]
    [1, 2, 0] (by decide) (by decide) (by decide) (by decide)
  obtain ⟨⟨s1, h1, h2, _⟩, _, _, ⟨s3, h3, h4, _⟩, _⟩ := h
  refine ⟨⟨s1, ?_, h2⟩, ⟨s3, h3, h4⟩⟩
  have e1 : ptr.serverlist.set ptr.insertionSort [1, 2, 0]
      ⟨[some ⟨"C", none, 0⟩, some ⟨"A", some (⟨"TCPAddr", true⟩, "b"), 1⟩]⟩
      [some ⟨"A", some (⟨"TCPAddr", true⟩, "a"), 1⟩, some ⟨"B", none, 0⟩,
        some ⟨"C", none, 0⟩] =
      ptr.serverlist.set ptr.insertionSort [1, 2, 0] ptr.newServerList
      [some ⟨"A", some (⟨"TCPAddr", true⟩, "a"), 1⟩, some ⟨"B", none, 0⟩,
        some ⟨"C", none, 0⟩] := by decide
  rw [← e1]
  exact h1

/-- C14 as stated fails: a sort that meets the contract of `sort.Sort` (the one of the Go
releases 1.6 to 1.18) reorders ties.  After the randomisation step with the outcome
0,1,..,6 the sequence is a, b, c, d, e, f, g with a and b of priority 1 and the others of
priority 0; `set` installs g, c, d, e, f, b, a, where b comes before a. -/
theorem set_reorders_ties :
    SortContract gapInsertionSort ∧
    shuffle [0, 1, 2, 3, 4, 5, 6]
        [(⟨"a", "", 1⟩ : endpoint), ⟨"b", "", 1⟩, ⟨"c", "", 0⟩, ⟨"d", "", 0⟩, ⟨"e", "", 0⟩,
          ⟨"f", "", 0⟩, ⟨"g", "", 0⟩] =
      some [⟨"a", "", 1⟩, ⟨"b", "", 1⟩, ⟨"c", "", 0⟩, ⟨"d", "", 0⟩, ⟨"e", "", 0⟩,
        ⟨"f", "", 0⟩, ⟨"g", "", 0⟩] ∧
    newServerList.set gapInsertionSort [0, 1, 2, 3, 4, 5, 6]
        [⟨"a", "", 1⟩, ⟨"b", "", 1⟩, ⟨"c", "", 0⟩, ⟨"d", "", 0⟩, ⟨"e", "", 0⟩,
          ⟨"f", "", 0⟩, ⟨"g", "", 0⟩] =
      some ⟨[⟨"g", "", 0⟩, ⟨"c", "", 0⟩, ⟨"d", "", 0⟩, ⟨"e", "", 0⟩, ⟨"f", "", 0⟩,
        ⟨"b", "", 1⟩, ⟨"a", "", 1⟩]⟩ ∧
    tiesOf 1 [⟨"a", "", 1⟩, ⟨"b", "", 1⟩, ⟨"c", "", 0⟩, ⟨"d", "", 0⟩, ⟨"e", "", 0⟩,
        ⟨"f", "", 0⟩, ⟨"g", "", 0⟩] = [⟨"a", "", 1⟩, ⟨"b", "", 1⟩] ∧
    tiesOf 1 [⟨"g", "", 0⟩, ⟨"c", "", 0⟩, ⟨"d", "", 0⟩, ⟨"e", "", 0⟩, ⟨"f", "", 0⟩,
        ⟨"b", "", 1⟩, ⟨"a", "", 1⟩] = [⟨"b", "", 1⟩, ⟨"a", "", 1⟩] := by
  refine ⟨gapInsertionSort_contract, by decide, by decide, by decide, by decide⟩

/-- C14 (amended): the sort step of `set` orders by priority only.  For every input and
every outcome of the randomisation step, whatever sort meets the contract of `sort.Sort`,
the installed sequence has non-decreasing priorities and each group of equal-priority
endpoints holds the same endpoints as right after the randomisation step; when the sort
is the insertion sort, each such group is also in the same order as right after the
randomisation step. -/
theorem sort_step_ties (sortSort : endpoints → endpoints) (hs : SortContract sortSort)
    (s : serverlist) (L : endpoints) (p : List Nat) (hp : p.Perm (List.range L.length)) :
    ∃ l1 s1 s2, shuffle p L = some l1 ∧ s.set sortSort p L = some s1 ∧
      s.set insertionSort p L = some s2 ∧
      s1.e.Pairwise (fun a b => a.priority ≤ b.priority) ∧
      (∀ k, (tiesOf k s1.e).Perm (tiesOf k l1)) ∧
      (∀ k, tiesOf k s2.e = tiesOf k l1) := by
  obtain ⟨l1, h1, _, h3⟩ := set_eq sortSort p s L hp
  refine ⟨l1, { e := sortSort l1 }, { e := insertionSort l1 }, h1, h3,
    by simp [serverlist.set, h1], hs.pairwise l1, ?_, fun k => insertionSort_ties k l1⟩
  intro k
  exact (hs.perm l1).filter _

/-- Instance of C14: with the insertion sort and the outcome 1,2,0 the endpoints of
priority 0 are installed in the order C, B they have after the randomisation step. -/
theorem sort_step_ties_witness :
    ∃ l1 s2, shuffle [1, 2, 0] [(⟨"A", "a", 1⟩ : endpoint), ⟨"B", "b", 0⟩, ⟨"C", "c", 0⟩]
        = some l1 ∧
      newServerList.set insertionSort [1, 2, 0]
        [⟨"A", "a", 1⟩, ⟨"B", "b", 0⟩, ⟨"C", "c", 0⟩] = some s2 ∧
      tiesOf 0 s2.e = tiesOf 0 l1 := by
  obtain ⟨l1, _, s2, h1, _, h3, _, _, h6⟩ :=
    sort_step_ties insertionSort insertionSort_contract newServerList
      [⟨"A", "a", 1⟩, ⟨"B", "b", 0⟩, ⟨"C", "c", 0⟩] [1, 2, 0] (by decide)
  exact ⟨l1, s2, h1, h3, h6 0⟩

end client
